import Mathlib

/-!
Verification of the cubic cardinal B-spline interpolation module
(`cardBspline/nb3spl.py`) against its specification.

The module works on numpy arrays whose leading axis is the interpolation
(grid) axis and whose trailing axes are arbitrary batch dimensions.  We embed
such an array as a `List (ι → ℚ)`: a list along the leading axis whose
elements are the trailing-batch slices, indexed by an arbitrary type `ι`
(`ι = Unit` is the plain 1-D case).  All numpy arithmetic used by the module
is elementwise over the trailing shape, which the pointwise `Pi` instances
on `ι → ℚ` model exactly.  Floating point is embedded as exact rational
arithmetic.

The tridiagonal solver is defined over any type `α` carrying the four
operations it uses (`-`, `*`, `/` and the zero used for padding), so that the
same definition serves for scalars (`α = ℚ`) and batched slices
(`α = ι → ℚ`), mirroring the fact that the Python routine is one piece of
code operating elementwise over whatever trailing shape its arguments have.
-/

/-- Lift of a python/numpy scalar to a constant trailing-batch slice
(numpy broadcasting of a scalar against an array). -/
def cst {ι : Type*} (q : ℚ) : ι → ℚ := fun _ => q

/-- `cubic_Bspline_kernel` from `nb3spl.py`:
if abs_t > 2: 0; elif abs_t > 1: (2-abs_t)^3; else 4 - 3*(2*abs_t^2 - abs_t^3). -/
def cubic_Bspline_kernel (abs_t : ℚ) : ℚ :=
  if abs_t > 2 then 0
  else if abs_t > 1 then (2 - abs_t) ^ 3
  else 4 - 3 * (2 * abs_t ^ 2 - abs_t ^ 3)

/-- `aux.astype(np.int64)`: C-style conversion of a real to an integer,
truncating toward zero (floor for nonnegative values, ceiling for negative
values). -/
def astype_int64 (q : ℚ) : ℤ :=
  if q < 0 then ⌈q⌉ else ⌊q⌋

/-- numpy integer (gather) indexing along the leading axis: a negative index
`k` with `-len ≤ k` wraps around to `len + k`; anything else out of range is
not a behaviour the module relies on and is embedded as the zero slice. -/
def npIndex {α : Type*} [Zero α] (c : List α) (k : ℤ) : α :=
  if k < 0 then c.getD ((c.length : ℤ) + k).toNat 0 else c.getD k.toNat 0

/-- Forward-elimination loop of `TDMAsolver`:
for it in range(0, nf-1): m = a[it]/b[it]; b[it+1] -= m*c[it]; d[it+1] -= m*d[it].
Returns the final contents of the (in-place updated) arrays `b` and `d`.
The recursion emits the already-final head entries `b[it]`, `d[it]` and
continues with the updated `b[it+1]`, `d[it+1]` at the head, stopping after
`nf-1` steps exactly as the loop does. -/
def tdmaForward {α : Type*} [Sub α] [Mul α] [Div α] :
    List α → List α → List α → List α → List α × List α
  | a0 :: as, b0 :: b1 :: bs, c0 :: cs, d0 :: d1 :: ds =>
    let m := a0 / b0
    let p := tdmaForward as ((b1 - m * c0) :: bs) cs ((d1 - m * d0) :: ds)
    (b0 :: p.1, d0 :: p.2)
  | _, b, _, d => (b, d)

/-- Back-substitution loop of `TDMAsolver`:
b[-1] = d[-1]/b[-1]; for il in range(nf-2, -1, -1): b[il] = (d[il] - c[il]*b[il+1])/b[il].
The solution is written over `b`; this definition returns that final array. -/
def tdmaBack {α : Type*} [Zero α] [Sub α] [Mul α] [Div α] :
    List α → List α → List α → List α
  | b0 :: bs, c0 :: cs, d0 :: d1 :: ds =>
    let xs := tdmaBack bs cs (d1 :: ds)
    ((d0 - c0 * xs.headD 0) / b0) :: xs
  | b0 :: _, _, [d0] => [d0 / b0]
  | _, _, _ => []

/-- `TDMAsolver(a, b, c, d)` from `nb3spl.py`: Thomas-algorithm forward
elimination followed by back substitution; the returned array is the
(in-place overwritten) `b`. -/
def TDMAsolver {α : Type*} [Zero α] [Sub α] [Mul α] [Div α]
    (a b c d : List α) : List α :=
  let p := tdmaForward a b c d
  tdmaBack p.1 c p.2

/-- Row `i ≥ 1` of the tridiagonal matrix product carries the term
`a[i-1] * x[i-1]`, passed down as `prev`; row `i` itself contributes
`b[i]*x[i] + c[i]*x[i+1]` where the `x[i+1]` of the last row is the zero pad.
The convention `A[i+1][i] = a[i]`, `A[i][i+1] = c[i]` is the one the solver
uses (it reads `a[it]`, `c[it]` for `it < nf-1` and ignores `a[-1]`, `c[-1]`,
compare the comment `the TDMAsolver ignores a[-1]` in `calc_coeffs`). -/
def tridiagMulAux {α : Type*} [Zero α] [Add α] [Mul α] :
    α → List α → List α → List α → List α → List α
  | prev, a, b0 :: bs, c0 :: cs, x0 :: xs =>
    (prev + b0 * x0 + c0 * xs.headD 0) ::
      (match a with
       | a0 :: as => tridiagMulAux (a0 * x0) as bs cs xs
       | [] => tridiagMulAux 0 [] bs cs xs)
  | _, _, _, _, _ => []

/-- Product `A x` of the tridiagonal matrix `A` formed from the diagonals
`a` (sub), `b` (main), `c` (super) with a vector `x`. -/
def tridiagMul {α : Type*} [Zero α] [Add α] [Mul α]
    (a b c x : List α) : List α :=
  tridiagMulAux 0 a b c x

/-- `calc_coeffs(yi, alpha=0., beta=0.)` from `nb3spl.py`, for a value array
`yi` of shape `(n, ...)` embedded as `List (ι → ℚ)` and scalar boundary
parameters.  The in-place writes of the Python code assemble, for `n ≥ 3`,
exactly the list `[c[0], c[1]] ++ x ++ [c[n], c[n+1]]` built here:
`c[1] = (yi[0]-α/6)/6` and `c[-2] = (yi[-1]-β/6)/6` are set first, the
interior right-hand side is the copy `yi[1:-1]` with `c[1]` subtracted from
its first entry and then `c[-2]` subtracted from its last entry (sequentially,
so for `n = 3` both hit the single entry), the interior `c[2:-2]` is the
solver output for the all-ones/fours system, and the boundary entries
`c[0]`, `c[-1]` are extrapolated from it. -/
def calc_coeffs {ι : Type*} (yi : List (ι → ℚ)) (alpha beta : ℚ) :
    List (ι → ℚ) :=
  let c1 := (yi.headD 0 - cst (alpha / 6)) / cst 6
  let cn := (yi.getLastD 0 - cst (beta / 6)) / cst 6
  let y0 := (yi.drop 1).dropLast
  let y1 := y0.set 0 (y0.headD 0 - c1)
  let y2 := y1.set (y1.length - 1) (y1.getLastD 0 - cn)
  let a := List.replicate y0.length (cst (ι := ι) 1)
  let b := a.map (fun v => cst 3 + v)
  let x := TDMAsolver a b a y2
  let c0 := cst (alpha / 6) + cst 2 * c1 - x.headD 0
  let cLast := cst (beta / 6) + cst 2 * cn - x.getLastD 0
  [c0, c1] ++ x ++ [cn, cLast]

/-- The interpolator state stored by `_CubicBSpline.__init__` for the
`axis = 0` (ordered) case: the grid and the coefficient array
`np.concatenate((calc_coeffs(yi), np.zeros((1,)+shape[1:])))`. -/
structure Fitted (ι : Type*) where
  xi : List ℚ
  c : List (ι → ℚ)

/-- `CubicBSpline(xi, yi)` with `axis = 0` (the ordered path): the wrapper
performs no validation of any kind (the module contains no `raise` statement
and defines no exception classes), builds the coefficients and appends the
single all-zero slice. -/
def CubicBSpline0 {ι : Type*} (xi : List ℚ) (yi : List (ι → ℚ)) : Fitted ι :=
  { xi := xi, c := calc_coeffs yi 0 0 ++ [0] }

/-- `_CubicBSpline.interp(x)` for a flat 1-D query array `x`, on the ordered
path.  Per query point: `aux = (x - xi[0]) / h` with
`h = (xi[-1] - xi[0]) / float64(n - 1)`, `k = aux.astype(int64) - 1`, then
four iterations of `abs_diff = |aux - k|; k += 1; u = kernel(abs_diff);
y += u * c[k]`.  The loop is vectorized over query points in the source;
since no operation couples distinct query points, it is embedded per point.
The scalar kernel value multiplies the gathered coefficient slice
(broadcast against the trailing shape), embedded as `•`. -/
def interp {ι : Type*} (xi : List ℚ) (c : List (ι → ℚ)) (x : List ℚ) :
    List (ι → ℚ) :=
  let h := (xi.getLastD 0 - xi.headD 0) / ((xi.length - 1 : ℕ) : ℚ)
  x.map (fun xq =>
    let aux := (xq - xi.headD 0) / h
    let k0 := astype_int64 aux - 1
    (List.range 4).foldl
      (fun (y : ι → ℚ) (i : ℕ) =>
        y + cubic_Bspline_kernel |aux - ((k0 + (i : ℤ) : ℤ) : ℚ)| •
              npIndex c (k0 + (i : ℤ) + 1)) 0)

/-- A uniformly spaced grid of `n` points starting at `x0` with spacing `h`:
the general form of the strictly increasing uniform grids (`h > 0`) the
module is specified for. -/
def uniformGrid (x0 h : ℚ) (n : ℕ) : List ℚ :=
  List.map (fun j : ℕ => x0 + (j : ℚ) * h) (List.range n)

/-! ### Basis kernel: pointwise evaluation facts -/

/-- On `t ≤ 1` the kernel takes its innermost branch. -/
theorem kernel_eval_le_one (t : ℚ) (h2 : t ≤ 1) :
    cubic_Bspline_kernel t = 4 - 3 * (2 * t ^ 2 - t ^ 3) := by
  unfold cubic_Bspline_kernel
  rw [if_neg (by linarith), if_neg (by linarith)]

/-- On `1 ≤ t ≤ 2` the kernel agrees with `(2-t)^3` (at `t = 1` both
branches give the value `1`). -/
theorem kernel_eval_one_two (t : ℚ) (h1 : 1 ≤ t) (h2 : t ≤ 2) :
    cubic_Bspline_kernel t = (2 - t) ^ 3 := by
  unfold cubic_Bspline_kernel
  rw [if_neg (by linarith)]
  rcases lt_or_eq_of_le h1 with h | h
  · rw [if_pos h]
  · rw [if_neg (by linarith)]
    rw [← h]; norm_num

/-- C7: for every `t ≥ 0` the basis kernel satisfies `K(t) = 0` when
`t > 2`, `K(t) = (2-t)^3` when `1 < t ≤ 2`, and
`K(t) = 4 - 3*(2t^2 - t^3)` when `t ≤ 1`. -/
theorem spline_kernel_piecewise (t : ℚ) (ht : 0 ≤ t) :
    (2 < t → cubic_Bspline_kernel t = 0) ∧
    (1 < t → t ≤ 2 → cubic_Bspline_kernel t = (2 - t) ^ 3) ∧
    (t ≤ 1 → cubic_Bspline_kernel t = 4 - 3 * (2 * t ^ 2 - t ^ 3)) := by
  refine ⟨fun h => ?_, fun h1 h2 => ?_, fun h => kernel_eval_le_one t h⟩
  · unfold cubic_Bspline_kernel
    rw [if_pos h]
  · exact kernel_eval_one_two t (le_of_lt h1) h2

/-- Witness for `spline_kernel_piecewise` at `t = 3/2`. -/
theorem spline_kernel_piecewise_witness :
    (0 ≤ (3 : ℚ) / 2) ∧
    ((2 < (3 : ℚ) / 2 → cubic_Bspline_kernel (3 / 2) = 0) ∧
     (1 < (3 : ℚ) / 2 → (3 : ℚ) / 2 ≤ 2 →
        cubic_Bspline_kernel (3 / 2) = (2 - 3 / 2) ^ 3) ∧
     ((3 : ℚ) / 2 ≤ 1 →
        cubic_Bspline_kernel (3 / 2) = 4 - 3 * (2 * (3 / 2) ^ 2 - (3 / 2) ^ 3))) :=
  ⟨by norm_num, spline_kernel_piecewise (3 / 2) (by norm_num)⟩

/-- C10: for `0 ≤ t ≤ 1` the four kernel values combined by one evaluation
window of `interp` sum to `6`:
`K(1+t) + K(t) + K(1-t) + K(2-t) = 6`. -/
theorem kernel_window_sum_six (t : ℚ) (h0 : 0 ≤ t) (h1 : t ≤ 1) :
    cubic_Bspline_kernel (1 + t) + cubic_Bspline_kernel t +
      cubic_Bspline_kernel (1 - t) + cubic_Bspline_kernel (2 - t) = 6 := by
  rw [kernel_eval_one_two (1 + t) (by linarith) (by linarith),
      kernel_eval_le_one t h1,
      kernel_eval_le_one (1 - t) (by linarith),
      kernel_eval_one_two (2 - t) (by linarith) (by linarith)]
  ring

/-- Witness for `kernel_window_sum_six` at `t = 1/2`. -/
theorem kernel_window_sum_six_witness :
    (0 ≤ (1 : ℚ) / 2) ∧ ((1 : ℚ) / 2 ≤ 1) ∧
    (cubic_Bspline_kernel (1 + 1 / 2) + cubic_Bspline_kernel (1 / 2) +
      cubic_Bspline_kernel (1 - 1 / 2) + cubic_Bspline_kernel (2 - 1 / 2) = 6) :=
  ⟨by norm_num, by norm_num, kernel_window_sum_six (1 / 2) (by norm_num) (by norm_num)⟩

/-! ### Tridiagonal solver: lengths, slicing and correctness -/

/-- Trailing-batch slice of an embedded array at batch index `t`. -/
def slget {ι : Type*} (t : ι) (l : List (ι → ℚ)) : List ℚ :=
  l.map (fun f => f t)

@[simp]
theorem slget_nil {ι : Type*} (t : ι) : slget t ([] : List (ι → ℚ)) = [] := rfl

@[simp]
theorem slget_cons {ι : Type*} (t : ι) (f : ι → ℚ) (l : List (ι → ℚ)) :
    slget t (f :: l) = f t :: slget t l := rfl

@[simp]
theorem slget_length {ι : Type*} (t : ι) (l : List (ι → ℚ)) :
    (slget t l).length = l.length := List.length_map _ _

theorem tdmaForward_fst_length {α : Type*} [Sub α] [Mul α] [Div α] :
    ∀ a b c d : List α, (tdmaForward a b c d).1.length = b.length := by
  intro a b c d
  induction a, b, c, d using tdmaForward.induct with
  | case1 a0 as b0 b1 bs c0 cs d0 d1 ds m ih =>
    simpa [tdmaForward] using ih
  | case2 a b c d h => simp [tdmaForward.eq_def]

theorem tdmaForward_snd_length {α : Type*} [Sub α] [Mul α] [Div α] :
    ∀ a b c d : List α, (tdmaForward a b c d).2.length = d.length := by
  intro a b c d
  induction a, b, c, d using tdmaForward.induct with
  | case1 a0 as b0 b1 bs c0 cs d0 d1 ds m ih =>
    simpa [tdmaForward] using ih
  | case2 a b c d h => simp [tdmaForward.eq_def]

@[simp]
theorem tridiagMulAux_b_nil {α : Type*} [Zero α] [Add α] [Mul α]
    (prev : α) (a c x : List α) : tridiagMulAux prev a [] c x = [] := by
  cases a <;> cases c <;> cases x <;> rfl

@[simp]
theorem tridiagMulAux_c_nil {α : Type*} [Zero α] [Add α] [Mul α]
    (prev : α) (a b x : List α) : tridiagMulAux prev a b [] x = [] := by
  cases a <;> cases b <;> cases x <;> rfl

@[simp]
theorem tridiagMulAux_x_nil {α : Type*} [Zero α] [Add α] [Mul α]
    (prev : α) (a b c : List α) : tridiagMulAux prev a b c [] = [] := by
  cases a <;> cases b <;> cases c <;> rfl

@[simp]
theorem tridiagMulAux_nil_cons {α : Type*} [Zero α] [Add α] [Mul α]
    (prev : α) (b0 : α) (bs : List α) (c0 : α) (cs : List α)
    (x0 : α) (xs : List α) :
    tridiagMulAux prev [] (b0 :: bs) (c0 :: cs) (x0 :: xs) =
      (prev + b0 * x0 + c0 * xs.headD 0) :: tridiagMulAux 0 [] bs cs xs := rfl

@[simp]
theorem tridiagMulAux_cons_cons {α : Type*} [Zero α] [Add α] [Mul α]
    (prev : α) (a0 : α) (as : List α) (b0 : α) (bs : List α)
    (c0 : α) (cs : List α) (x0 : α) (xs : List α) :
    tridiagMulAux prev (a0 :: as) (b0 :: bs) (c0 :: cs) (x0 :: xs) =
      (prev + b0 * x0 + c0 * xs.headD 0) :: tridiagMulAux (a0 * x0) as bs cs xs := rfl

theorem tdmaBack_length {α : Type*} [Zero α] [Sub α] [Mul α] [Div α] :
    ∀ b c d : List α, b.length = d.length → c.length = d.length →
      (tdmaBack b c d).length = d.length := by
  intro b c d
  induction b, c, d using tdmaBack.induct with
  | case1 b0 bs c0 cs d0 d1 ds ih =>
    intro hb hc
    simp only [List.length_cons] at hb hc
    have ihh := ih (by simp only [List.length_cons]; omega)
      (by simp only [List.length_cons]; omega)
    simp only [tdmaBack, List.length_cons, ihh]
  | case2 b0 tail x d0 => intro _ _; simp [tdmaBack]
  | case3 t x x1 h1 h2 =>
    intro hb hc
    cases x1 with
    | nil => cases t <;> cases x <;> simp_all [tdmaBack]
    | cons e es =>
      cases es with
      | nil =>
        cases t with
        | nil => simp at hb
        | cons t0 ts => exact (h2 t0 ts e rfl rfl).elim
      | cons e1 es1 =>
        cases t with
        | nil => simp at hb
        | cons t0 ts =>
          cases x with
          | nil => simp at hc
          | cons q qs => exact (h1 t0 ts q qs e e1 es1 rfl rfl rfl).elim

/-- Back substitution solves the upper bidiagonal system `(b, c)`:
the product of the bidiagonal matrix with `tdmaBack b c d` is `d`,
provided the divisors `b` are nonzero. -/
theorem tdmaBack_solves :
    ∀ (d b c : List ℚ), b.length = d.length → c.length = d.length →
      (∀ p ∈ b, p ≠ 0) →
      tridiagMul [] b c (tdmaBack b c d) = d := by
  intro d
  induction d with
  | nil =>
    intro b c hb _ _
    rw [List.length_nil, List.length_eq_zero] at hb
    subst hb
    simp [tdmaBack, tridiagMul]
  | cons d0 ds ih =>
    intro b c hb hc hnz
    cases b with
    | nil => simp at hb
    | cons b0 bs =>
      cases c with
      | nil => simp at hc
      | cons c0 cs =>
        have hb0 : b0 ≠ 0 := hnz b0 (by simp)
        cases ds with
        | nil =>
          have hbs : bs = [] := by simpa using hb
          have hcs : cs = [] := by simpa using hc
          subst hbs; subst hcs
          simp only [tdmaBack, tridiagMul, tridiagMulAux_nil_cons,
            tridiagMulAux_x_nil, List.headD_nil]
          rw [mul_div_cancel₀ d0 hb0]
          norm_num
        | cons d1 ds1 =>
          simp only [List.length_cons] at hb hc
          have ihh := ih bs cs (by simp only [List.length_cons]; omega)
            (by simp only [List.length_cons]; omega)
            (fun p hp => hnz p (List.mem_cons_of_mem _ hp))
          simp only [tdmaBack, tridiagMul, tridiagMulAux_nil_cons]
          simp only [tridiagMul] at ihh
          rw [ihh]
          congr 1
          field_simp

/-- Forward elimination is sound: any `x` solving the eliminated upper
bidiagonal system (eliminated diagonal, original superdiagonal, eliminated
right-hand side) also solves the original tridiagonal system, provided the
pivots are nonzero. -/
theorem tdmaForward_solves :
    ∀ (c a b d x : List ℚ), a.length = d.length → b.length = d.length →
      c.length = d.length → x.length = d.length →
      (∀ p ∈ (tdmaForward a b c d).1, p ≠ 0) →
      tridiagMul [] (tdmaForward a b c d).1 c x = (tdmaForward a b c d).2 →
      tridiagMul a b c x = d := by
  intro c
  induction c with
  | nil =>
    intro a b d x _ hb hc _ _ hs
    have hd : d = [] := by simpa using hc.symm
    subst hd
    have hb' : b = [] := by simpa using hb
    subst hb'
    simpa [tridiagMul] using hs
  | cons c0 cs ih =>
    intro a b d x ha hb hc hx hnz hs
    cases d with
    | nil => simp at hc
    | cons d0 ds =>
      cases a with
      | nil => simp at ha
      | cons a0 as =>
        cases b with
        | nil => simp at hb
        | cons b0 bs =>
          cases x with
          | nil => simp at hx
          | cons x0 xs =>
            cases ds with
            | nil =>
              have has : as = [] := by simpa using ha
              have hbs : bs = [] := by simpa using hb
              have hcs : cs = [] := by simpa using hc
              have hxs : xs = [] := by simpa using hx
              subst has; subst hbs; subst hcs; subst hxs
              simp only [tdmaForward] at hs
              simpa [tridiagMul] using hs
            | cons d1 ds1 =>
              rcases bs with _ | ⟨b1, bs1⟩
              · simp at hb
              rcases xs with _ | ⟨x1, xs1⟩
              · simp at hx
              rcases cs with _ | ⟨c1, cs1⟩
              · simp at hc
              rcases as with _ | ⟨a1, as1⟩
              · simp at ha
              simp only [List.length_cons] at ha hb hc hx
              simp only [tdmaForward] at hnz hs
              have hb0 : b0 ≠ 0 := hnz b0 (by simp)
              have hnzP : ∀ p ∈ (tdmaForward (a1 :: as1)
                  ((b1 - a0 / b0 * c0) :: bs1) (c1 :: cs1)
                  ((d1 - a0 / b0 * d0) :: ds1)).1, p ≠ 0 :=
                fun p hp => hnz p (List.mem_cons_of_mem _ hp)
              simp only [tridiagMul, tridiagMulAux_nil_cons,
                List.headD_cons, List.cons.injEq] at hs
              obtain ⟨head0, tail0⟩ := hs
              have ihh := ih (a1 :: as1) ((b1 - a0 / b0 * c0) :: bs1)
                ((d1 - a0 / b0 * d0) :: ds1) (x1 :: xs1)
                (by simp only [List.length_cons]; omega)
                (by simp only [List.length_cons]; omega)
                (by simp only [List.length_cons]; omega)
                (by simp only [List.length_cons]; omega)
                hnzP (by simpa [tridiagMul] using tail0)
              simp only [tridiagMul, tridiagMulAux_cons_cons,
                List.headD_cons, List.cons.injEq] at ihh ⊢
              obtain ⟨ihHead, ihTail⟩ := ihh
              refine ⟨by linarith [head0], ?_, ihTail⟩
              have hq : a0 / b0 * b0 = a0 := div_mul_cancel₀ a0 hb0
              linear_combination ihHead + (a0 / b0) * head0 - x0 * hq

/-- The `TDMAsolver` output solves the original tridiagonal system
(scalar slice version). -/
theorem TDMAsolver_solves_scalar (a b c d : List ℚ)
    (ha : a.length = d.length) (hb : b.length = d.length)
    (hc : c.length = d.length)
    (hnz : ∀ p ∈ (tdmaForward a b c d).1, p ≠ 0) :
    tridiagMul a b c (TDMAsolver a b c d) = d := by
  unfold TDMAsolver
  have hlen1 : (tdmaForward a b c d).1.length = d.length := by
    rw [tdmaForward_fst_length]; exact hb
  have hlen2 : (tdmaForward a b c d).2.length = d.length := by
    rw [tdmaForward_snd_length]
  refine tdmaForward_solves c a b d _ ha hb hc ?_ hnz ?_
  · rw [tdmaBack_length _ _ _ (by omega) (by omega)]; omega
  · rw [tdmaBack_solves _ _ _ (by omega) (by omega) hnz]

@[simp]
theorem slget_headD {ι : Type*} (t : ι) (l : List (ι → ℚ)) :
    (l.headD 0) t = (slget t l).headD 0 := by
  cases l <;> simp [slget]

/-- Slicing at a fixed batch index commutes with forward elimination:
the elementwise recurrences act independently per trailing slice. -/
theorem tdmaForward_slget {ι : Type*} (t : ι) :
    ∀ a b c d : List (ι → ℚ),
      tdmaForward (slget t a) (slget t b) (slget t c) (slget t d) =
        (slget t (tdmaForward a b c d).1, slget t (tdmaForward a b c d).2) := by
  intro a b c d
  induction a, b, c, d using tdmaForward.induct with
  | case1 a0 as b0 b1 bs c0 cs d0 d1 ds m ih =>
    simp only [slget, List.map_cons] at ih ⊢
    simp only [tdmaForward]
    simp only [Pi.sub_apply, Pi.mul_apply, Pi.div_apply, m] at ih
    rw [ih]
    simp
  | case2 a b c d h =>
    rcases a with _ | ⟨a0, as⟩
    · simp [tdmaForward, slget]
    rcases b with _ | ⟨b0, bs⟩
    · simp [tdmaForward, slget]
    rcases c with _ | ⟨c0, cs⟩
    · simp [tdmaForward, slget]
    rcases d with _ | ⟨d0, ds⟩
    · simp [tdmaForward, slget]
    rcases bs with _ | ⟨b1, bs1⟩
    · simp [tdmaForward, slget]
    rcases ds with _ | ⟨d1, ds1⟩
    · simp [tdmaForward, slget]
    exact (h a0 as b0 b1 bs1 c0 cs d0 d1 ds1 rfl rfl rfl rfl).elim

/-- Slicing at a fixed batch index commutes with back substitution. -/
theorem tdmaBack_slget {ι : Type*} (t : ι) :
    ∀ b c d : List (ι → ℚ),
      tdmaBack (slget t b) (slget t c) (slget t d) = slget t (tdmaBack b c d) := by
  intro b c d
  induction b, c, d using tdmaBack.induct with
  | case1 b0 bs c0 cs d0 d1 ds ih =>
    simp only [slget, List.map_cons] at ih ⊢
    simp only [tdmaBack, ih]
    congr 1
    simp only [Pi.div_apply, Pi.sub_apply, Pi.mul_apply]
    cases tdmaBack bs cs (d1 :: ds) <;> simp
  | case2 b0 tail x d0 =>
    simp [tdmaBack, slget, Pi.div_apply]
  | case3 b c d h1 h2 =>
    rcases b with _ | ⟨b0, bs⟩
    · simp [tdmaBack.eq_def, slget]
    rcases d with _ | ⟨d0, ds⟩
    · simp [tdmaBack.eq_def, slget]
    rcases ds with _ | ⟨d1, ds1⟩
    · exact (h2 b0 bs d0 rfl rfl).elim
    rcases c with _ | ⟨c0, cs⟩
    · simp [tdmaBack.eq_def, slget]
    exact (h1 b0 bs c0 cs d0 d1 ds1 rfl rfl rfl).elim

/-- Slicing commutes with the whole solver. -/
theorem TDMAsolver_slget {ι : Type*} (t : ι) (a b c d : List (ι → ℚ)) :
    TDMAsolver (slget t a) (slget t b) (slget t c) (slget t d) =
      slget t (TDMAsolver a b c d) := by
  unfold TDMAsolver
  rw [tdmaForward_slget t a b c d]
  exact tdmaBack_slget t _ _ _

/-- C5: for diagonals `a`, `b`, `c` of length `m ≥ 2` and a right-hand side
`d` of length `m` along the solved axis (1-D for `ι = Unit`, or with an
arbitrary trailing batch shape indexed by `ι`), provided every pivot arising
during forward elimination is nonzero (in every trailing slice), the array
returned by `TDMAsolver(a, b, c, d)` has the shape of `d` and is a solution
`x` of `A x = d` for the tridiagonal matrix `A` formed from the original
`a`, `b`, `c`, the recurrences acting independently per trailing slice. -/
theorem TDMAsolver_solves {ι : Type*} (a b c d : List (ι → ℚ))
    (hm : 2 ≤ d.length)
    (ha : a.length = d.length) (hb : b.length = d.length)
    (hc : c.length = d.length)
    (hnz : ∀ t : ι, ∀ p ∈ (tdmaForward (slget t a) (slget t b) (slget t c)
        (slget t d)).1, p ≠ 0) :
    (TDMAsolver a b c d).length = d.length ∧
    ∀ t : ι, tridiagMul (slget t a) (slget t b) (slget t c)
        (slget t (TDMAsolver a b c d)) = slget t d := by
  constructor
  · unfold TDMAsolver
    rw [tdmaBack_length _ _ _
      (by rw [tdmaForward_fst_length, tdmaForward_snd_length]; exact hb)
      (by rw [tdmaForward_snd_length]; exact hc)]
    exact tdmaForward_snd_length a b c d
  · intro t
    rw [← TDMAsolver_slget]
    exact TDMAsolver_solves_scalar _ _ _ _ (by simp [ha]) (by simp [hb])
      (by simp [hc]) (hnz t)

/-- Concrete diagonally dominant system (diagonal 4, off-diagonals 1) over a
one-slice batch, used to witness the solver theorem. -/
def wSubDiag : List (Fin 1 → ℚ) := [cst 1, cst 1]

/-- Main diagonal of the concrete witness system. -/
def wDiag : List (Fin 1 → ℚ) := [cst 4, cst 4]

/-- Right-hand side of the concrete witness system. -/
def wRhs : List (Fin 1 → ℚ) := [cst 5, cst 6]

/-- Witness for `TDMAsolver_solves`: the concrete diagonally dominant
2x2 system with diagonal 4 and off-diagonals 1 over a one-slice batch. -/
theorem TDMAsolver_solves_witness :
    (2 ≤ wRhs.length) ∧
    (∀ t : Fin 1, ∀ p ∈ (tdmaForward (slget t wSubDiag) (slget t wDiag)
        (slget t wSubDiag) (slget t wRhs)).1, p ≠ 0) ∧
    ((TDMAsolver wSubDiag wDiag wSubDiag wRhs).length = wRhs.length ∧
      ∀ t : Fin 1, tridiagMul (slget t wSubDiag) (slget t wDiag)
        (slget t wSubDiag)
        (slget t (TDMAsolver wSubDiag wDiag wSubDiag wRhs)) = slget t wRhs) :=
  ⟨by norm_num [wRhs],
   by intro t; norm_num [tdmaForward, slget, cst, wSubDiag, wDiag, wRhs],
   TDMAsolver_solves _ _ _ _ (by norm_num [wRhs]) rfl rfl rfl
     (by intro t; norm_num [tdmaForward, slget, cst, wSubDiag, wDiag, wRhs])⟩

/-! ### Slicing utilities and pivots of the ones/fours system -/

@[simp]
theorem slget_getD {ι : Type*} (t : ι) :
    ∀ (l : List (ι → ℚ)) (i : ℕ), (slget t l).getD i 0 = l.getD i 0 t := by
  intro l
  induction l with
  | nil => intro i; simp [slget]
  | cons f fs ih =>
    intro i
    cases i with
    | zero => simp [slget]
    | succ n => simp only [slget_cons, List.getD_cons_succ]; exact ih n

@[simp]
theorem slget_getLastD {ι : Type*} (t : ι) (l : List (ι → ℚ)) :
    (l.getLastD 0) t = (slget t l).getLastD 0 := by
  induction l with
  | nil => simp [slget]
  | cons f fs ih =>
    cases fs with
    | nil => simp [slget]
    | cons g gs => simpa [slget] using ih

theorem slget_append {ι : Type*} (t : ι) (l l' : List (ι → ℚ)) :
    slget t (l ++ l') = slget t l ++ slget t l' := List.map_append _ _ _

theorem slget_set {ι : Type*} (t : ι) :
    ∀ (l : List (ι → ℚ)) (i : ℕ) (v : ι → ℚ),
      slget t (l.set i v) = (slget t l).set i (v t) := by
  intro l
  induction l with
  | nil => intro i v; simp [slget]
  | cons f fs ih => intro i v; cases i <;> simp [slget, ih]

theorem slget_drop {ι : Type*} (t : ι) (l : List (ι → ℚ)) (n : ℕ) :
    slget t (l.drop n) = (slget t l).drop n := by
  simp [slget, List.map_drop]

theorem slget_dropLast {ι : Type*} (t : ι) (l : List (ι → ℚ)) :
    slget t l.dropLast = (slget t l).dropLast := by
  induction l with
  | nil => simp [slget]
  | cons f fs ih =>
    cases fs with
    | nil => simp [slget]
    | cons g gs => simpa [slget] using ih

theorem slget_replicate_cst {ι : Type*} (t : ι) (m : ℕ) (q : ℚ) :
    slget t (List.replicate m (cst q)) = List.replicate m q := by
  simp [slget, cst, List.map_replicate]

theorem slget_map_cst_add {ι : Type*} (t : ι) (l : List (ι → ℚ)) (q : ℚ) :
    slget t (l.map (fun v => cst q + v)) = (slget t l).map (fun v => q + v) := by
  simp [slget, cst]

/-- Along the forward elimination of a system whose subdiagonal and
superdiagonal entries are all `1` and whose not-yet-visited diagonal entries
are all `4`, every pivot stays in the interval `(2, 4]`. -/
theorem tdmaForward_pivots_interval :
    ∀ (cs as bs d : List ℚ) (b0 : ℚ),
      (∀ v ∈ as, v = 1) → (∀ v ∈ cs, v = 1) → (∀ v ∈ bs, v = 4) →
      2 < b0 → b0 ≤ 4 →
      ∀ p ∈ (tdmaForward as (b0 :: bs) cs d).1, 2 < p := by
  intro cs
  induction cs with
  | nil =>
    intro as bs d b0 _ _ hbs hl _ p hp
    rw [show tdmaForward as (b0 :: bs) [] d = (b0 :: bs, d) by
        cases as <;> cases bs <;> cases d <;> simp [tdmaForward]] at hp
    rcases List.mem_cons.mp hp with h | h
    · subst h; exact hl
    · rw [hbs p h]; norm_num
  | cons c0 cs ih =>
    intro as bs d b0 has hcs hbs hl hu p hp
    rcases as with _ | ⟨a0, as1⟩
    · rw [show tdmaForward [] (b0 :: bs) (c0 :: cs) d = (b0 :: bs, d) by
          simp [tdmaForward]] at hp
      rcases List.mem_cons.mp hp with h | h
      · subst h; exact hl
      · rw [hbs p h]; norm_num
    rcases bs with _ | ⟨b1, bs1⟩
    · rw [show tdmaForward (a0 :: as1) [b0] (c0 :: cs) d = ([b0], d) by
          cases d <;> simp [tdmaForward]] at hp
      rcases List.mem_cons.mp hp with h | h
      · subst h; exact hl
      · simp at h
    rcases d with _ | ⟨d0, ds⟩
    · rw [show tdmaForward (a0 :: as1) (b0 :: b1 :: bs1) (c0 :: cs) [] =
          (b0 :: b1 :: bs1, []) by simp [tdmaForward]] at hp
      rcases List.mem_cons.mp hp with h | h
      · subst h; exact hl
      · rw [hbs p h]; norm_num
    rcases ds with _ | ⟨d1, ds1⟩
    · rw [show tdmaForward (a0 :: as1) (b0 :: b1 :: bs1) (c0 :: cs) [d0] =
          (b0 :: b1 :: bs1, [d0]) by simp [tdmaForward]] at hp
      rcases List.mem_cons.mp hp with h | h
      · subst h; exact hl
      · rw [hbs p h]; norm_num
    simp only [tdmaForward] at hp
    rcases List.mem_cons.mp hp with h | h
    · subst h; exact hl
    · have ha0 : a0 = 1 := has a0 (by simp)
      have hc0 : c0 = 1 := hcs c0 (by simp)
      have hb1 : b1 = 4 := hbs b1 (by simp)
      have hb0pos : (0 : ℚ) < b0 := by linarith
      refine ih as1 bs1 ((d1 - a0 / b0 * d0) :: ds1) (b1 - a0 / b0 * c0)
        (fun v hv => has v (by simp [hv])) (fun v hv => hcs v (by simp [hv]))
        (fun v hv => hbs v (by simp [hv])) ?_ ?_ p h
      · rw [ha0, hc0, hb1]
        have : 1 / b0 < 2 := by
          rw [div_lt_iff hb0pos]; linarith
        linarith [this]
      · rw [ha0, hc0, hb1]
        have : 0 ≤ 1 / b0 := by positivity
        linarith

/-! ### Index characterisations -/

theorem headD_eq_getD {α : Type*} (l : List α) (d : α) : l.headD d = l.getD 0 d := by
  cases l <;> rfl

theorem getLastD_eq_getD {α : Type*} (l : List α) (d : α) :
    l.getLastD d = l.getD (l.length - 1) d := by
  induction l generalizing d with
  | nil => rfl
  | cons a as ih =>
    cases as with
    | nil => rfl
    | cons b bs =>
      rw [List.getLastD_cons, ih a]
      simp only [List.length_cons, Nat.add_sub_cancel]
      rw [List.getD_eq_getElem _ _ (by simp), List.getD_eq_getElem _ _ (by simp)]
      simp

theorem getD_set_eq' {α : Type*} (l : List α) (i : ℕ) (v d : α)
    (h : i < l.length) : (l.set i v).getD i d = v := by
  simp [List.getD, List.getElem?_set, h]

theorem getD_set_ne' {α : Type*} (l : List α) (i j : ℕ) (v d : α)
    (h : i ≠ j) : (l.set i v).getD j d = l.getD j d := by
  simp [List.getD, List.getElem?_set, h]

theorem getD_drop' {α : Type*} (l : List α) (k i : ℕ) (d : α) :
    (l.drop k).getD i d = l.getD (k + i) d := by
  simp [List.getD, List.getElem?_drop]

theorem getD_dropLast' {α : Type*} (l : List α) (i : ℕ) (d : α)
    (h : i < l.length - 1) : l.dropLast.getD i d = l.getD i d := by
  rw [List.dropLast_eq_take,
    List.getD_eq_getElem _ _ (by simp; omega),
    List.getD_eq_getElem _ _ (by omega)]
  simp [List.getElem_take]

theorem getD_replicate' {α : Type*} (m i : ℕ) (a d : α) (h : i < m) :
    (List.replicate m a).getD i d = a := by
  simp [List.getD, List.getElem?_replicate, h]

/-- `TDMAsolver` returns an array of the shape of `d`. -/
theorem TDMAsolver_length {α : Type*} [Zero α] [Sub α] [Mul α] [Div α]
    (a b c d : List α) (hb : b.length = d.length) (hc : c.length = d.length) :
    (TDMAsolver a b c d).length = d.length := by
  unfold TDMAsolver
  rw [tdmaBack_length _ _ _
    (by rw [tdmaForward_fst_length, tdmaForward_snd_length]; exact hb)
    (by rw [tdmaForward_snd_length]; exact hc)]
  exact tdmaForward_snd_length a b c d

/-- Entry `i` of the tridiagonal product in terms of the input entries. -/
theorem tridiagMulAux_getD {α : Type*} [AddZeroClass α] [MulZeroClass α] :
    ∀ (x b c a : List α) (prev : α) (i : ℕ),
      b.length = x.length → c.length = x.length → i < x.length →
      (tridiagMulAux prev a b c x).getD i 0 =
        (if i = 0 then prev else a.getD (i - 1) 0 * x.getD (i - 1) 0)
          + b.getD i 0 * x.getD i 0 + c.getD i 0 * x.getD (i + 1) 0 := by
  intro x
  induction x with
  | nil => intro b c a prev i _ _ hi; simp at hi
  | cons x0 xs ih =>
    intro b c a prev i hb hc hi
    rcases b with _ | ⟨b0, bs⟩
    · simp at hb
    rcases c with _ | ⟨c0, cs⟩
    · simp at hc
    simp only [List.length_cons] at hb hc hi
    cases i with
    | zero =>
      cases a <;> cases xs <;>
        simp [tridiagMulAux_nil_cons, tridiagMulAux_cons_cons, headD_eq_getD]
    | succ n =>
      cases a with
      | nil =>
        simp only [tridiagMulAux_nil_cons, List.getD_cons_succ]
        rw [ih bs cs [] 0 n (by omega) (by omega) (by omega)]
        cases n with
        | zero => simp
        | succ k => simp
      | cons a0 as =>
        simp only [tridiagMulAux_cons_cons, List.getD_cons_succ]
        rw [ih bs cs as (a0 * x0) n (by omega) (by omega) (by omega)]
        cases n with
        | zero => simp
        | succ k => simp

theorem tridiagMulAux_length {α : Type*} [Zero α] [Add α] [Mul α] :
    ∀ (x b c a : List α) (prev : α),
      b.length = x.length → c.length = x.length →
      (tridiagMulAux prev a b c x).length = x.length := by
  intro x
  induction x with
  | nil => intro b c a prev _ _; simp
  | cons x0 xs ih =>
    intro b c a prev hb hc
    rcases b with _ | ⟨b0, bs⟩
    · simp at hb
    rcases c with _ | ⟨c0, cs⟩
    · simp at hc
    simp only [List.length_cons] at hb hc
    cases a with
    | nil =>
      simp only [tridiagMulAux_nil_cons, List.length_cons]
      rw [ih bs cs [] 0 (by omega) (by omega)]
    | cons a0 as =>
      simp only [tridiagMulAux_cons_cons, List.length_cons]
      rw [ih bs cs as (a0 * x0) (by omega) (by omega)]

/-- Slicing commutes with the tridiagonal product. -/
theorem tridiagMulAux_slget {ι : Type*} (t : ι) :
    ∀ (x b c a : List (ι → ℚ)) (prev : ι → ℚ),
      tridiagMulAux (prev t) (slget t a) (slget t b) (slget t c) (slget t x) =
        slget t (tridiagMulAux prev a b c x) := by
  intro x
  induction x with
  | nil => intro b c a prev; simp [slget]
  | cons x0 xs ih =>
    intro b c a prev
    rcases b with _ | ⟨b0, bs⟩
    · simp [slget]
    rcases c with _ | ⟨c0, cs⟩
    · simp [slget]
    cases a with
    | nil =>
      have ih0 := ih bs cs [] 0
      simp only [Pi.zero_apply, slget_nil] at ih0
      simp only [slget_cons, slget_nil, tridiagMulAux_nil_cons]
      rw [ih0]
      congr 1
      cases xs <;> simp [slget, Pi.add_apply, Pi.mul_apply]
    | cons a0 as =>
      have ih0 := ih bs cs as (a0 * x0)
      simp only [slget_cons] at ih0
      simp only [slget_cons, tridiagMulAux_cons_cons]
      rw [show a0 t * x0 t = (a0 * x0) t from rfl, ih0]
      congr 1
      cases xs <;> simp [slget, Pi.add_apply, Pi.mul_apply]

@[simp]
theorem cst_apply {ι : Type*} (q : ℚ) (t : ι) : cst q t = q := rfl

theorem tridiagMul_slget {ι : Type*} (t : ι) (a b c x : List (ι → ℚ)) :
    tridiagMul (slget t a) (slget t b) (slget t c) (slget t x) =
      slget t (tridiagMul a b c x) := by
  have h := tridiagMulAux_slget t x b c a 0
  simpa [tridiagMul, Pi.zero_apply] using h

/-- Two embedded arrays with equal lengths and equal slices at every batch
index are equal. -/
theorem list_fun_ext {ι : Type*} (l l' : List (ι → ℚ))
    (hlen : l.length = l'.length) (h : ∀ t, slget t l = slget t l') :
    l = l' := by
  apply List.ext_getElem hlen
  intro i h1 h2
  funext t
  have h3 := congrArg (fun L => L.getD i 0) (h t)
  simp only [slget_getD] at h3
  rwa [List.getD_eq_getElem _ _ h1, List.getD_eq_getElem _ _ h2] at h3

/-- The diagonal array `3. + np.ones(...)` is an all-fours array. -/
theorem b_replicate {ι : Type*} (m : ℕ) :
    (List.replicate m (cst (ι := ι) 1)).map (fun v => cst 3 + v) =
      List.replicate m (cst 4) := by
  rw [List.map_replicate]
  congr 1
  funext t
  simp only [Pi.add_apply, cst_apply]
  norm_num

/-- No pivot of the ones/fours system vanishes. -/
theorem pivots_ones_fours (m : ℕ) (d : List ℚ) :
    ∀ p ∈ (tdmaForward (List.replicate m 1) (List.replicate m 4)
      (List.replicate m 1) d).1, p ≠ 0 := by
  cases m with
  | zero =>
    intro p hp
    simp only [List.replicate_zero] at hp
    rw [show tdmaForward ([] : List ℚ) [] [] d = ([], d) by
      cases d <;> simp [tdmaForward]] at hp
    simp at hp
  | succ k =>
    intro p hp
    have h2 : 2 < p := by
      refine tdmaForward_pivots_interval (List.replicate (k+1) 1)
        (List.replicate (k+1) 1) (List.replicate k 4) d 4
        (fun v hv => List.eq_of_mem_replicate hv)
        (fun v hv => List.eq_of_mem_replicate hv)
        (fun v hv => List.eq_of_mem_replicate hv)
        (by norm_num) (by norm_num) p ?_
      rwa [show (4 : ℚ) :: List.replicate k 4 = List.replicate (k+1) 4 from
        (List.replicate_succ 4 k).symm]
    exact ne_of_gt (by linarith)

/-- The solver output for the ones/fours system is its exact solution, at
the embedded (batched) level. -/
theorem ones_fours_solved {ι : Type*} (d : List (ι → ℚ)) :
    tridiagMul (List.replicate d.length (cst 1))
      (List.replicate d.length (cst 4)) (List.replicate d.length (cst 1))
      (TDMAsolver (List.replicate d.length (cst 1))
        (List.replicate d.length (cst 4))
        (List.replicate d.length (cst 1)) d) = d := by
  have hX : (TDMAsolver (List.replicate d.length (cst (ι := ι) 1))
      (List.replicate d.length (cst 4))
      (List.replicate d.length (cst 1)) d).length = d.length :=
    TDMAsolver_length _ _ _ _ (by simp) (by simp)
  apply list_fun_ext
  · rw [tridiagMul]
    rw [tridiagMulAux_length _ _ _ _ _ (by simp [hX]) (by simp [hX])]
    exact hX
  · intro t
    rw [← tridiagMul_slget, ← TDMAsolver_slget, slget_replicate_cst,
      slget_replicate_cst]
    rw [TDMAsolver_solves_scalar _ _ _ _ (by simp) (by simp) (by simp)
      (pivots_ones_fours d.length (slget t d))]

/-- Collocation identity for the coefficients of `calc_coeffs`: for every
index `j` into the value array, `c[j] + 4*c[j+1] + c[j+2] = y[j]` (as
trailing-batch slices).  This combines the direct boundary formulas with the
solved interior system. -/
theorem calc_coeffs_window {ι : Type*} (yi : List (ι → ℚ)) (alpha beta : ℚ)
    (hn : 3 ≤ yi.length) (j : ℕ) (hj : j < yi.length) :
    (calc_coeffs yi alpha beta).getD j 0
      + cst 4 * (calc_coeffs yi alpha beta).getD (j + 1) 0
      + (calc_coeffs yi alpha beta).getD (j + 2) 0
    = yi.getD j 0 := by
  simp only [calc_coeffs]
  set Y0 := (yi.drop 1).dropLast with hY0
  set C1 := (yi.headD 0 - cst (ι := ι) (alpha / 6)) / cst 6 with hC1
  set CN := (yi.getLastD 0 - cst (ι := ι) (beta / 6)) / cst 6 with hCN
  set Y1 := Y0.set 0 (Y0.headD 0 - C1) with hY1
  set Y2 := Y1.set (Y1.length - 1) (Y1.getLastD 0 - CN) with hY2
  set X := TDMAsolver (List.replicate Y0.length (cst (ι := ι) 1))
      ((List.replicate Y0.length (cst (ι := ι) 1)).map (fun v => cst 3 + v))
      (List.replicate Y0.length (cst (ι := ι) 1)) Y2 with hX
  have hY0len : Y0.length = yi.length - 2 := by
    rw [hY0]
    simp only [List.length_dropLast, List.length_drop]
    omega
  have hY1len : Y1.length = yi.length - 2 := by
    rw [hY1, List.length_set]; exact hY0len
  have hY2len : Y2.length = yi.length - 2 := by
    rw [hY2, List.length_set]; exact hY1len
  have hXlen : X.length = yi.length - 2 := by
    rw [hX]
    rw [TDMAsolver_length _ _ _ _ (by simp [hY2len, hY0len])
      (by simp [hY2len, hY0len])]
    exact hY2len
  have hm1 : 1 ≤ yi.length - 2 := by omega
  have hrows : tridiagMul (List.replicate Y0.length (cst 1))
      (List.replicate Y0.length (cst 4)) (List.replicate Y0.length (cst 1)) X
      = Y2 := by
    have h02 : Y0.length = Y2.length := by rw [hY0len, hY2len]
    rw [hX, b_replicate, h02]
    exact ones_fours_solved Y2
  have hrow : ∀ i, i < yi.length - 2 →
      (if i = 0 then (0 : ι → ℚ)
        else (List.replicate Y0.length (cst (ι := ι) 1)).getD (i-1) 0 * X.getD (i-1) 0)
        + (List.replicate Y0.length (cst (ι := ι) 4)).getD i 0 * X.getD i 0
        + (List.replicate Y0.length (cst (ι := ι) 1)).getD i 0 * X.getD (i+1) 0
      = Y2.getD i 0 := by
    intro i hi
    have h := congrArg (fun L => L.getD i 0) hrows
    simp only [tridiagMul] at h
    rwa [tridiagMulAux_getD X (List.replicate Y0.length (cst 4))
      (List.replicate Y0.length (cst 1)) (List.replicate Y0.length (cst 1)) 0 i
      (by simp [hXlen, hY0len]) (by simp [hXlen, hY0len])
      (by rw [hXlen]; exact hi)] at h
  have hY0getD : ∀ i, i < yi.length - 2 → Y0.getD i 0 = yi.getD (i+1) 0 := by
    intro i hi
    rw [hY0, getD_dropLast' _ _ _ (by simp only [List.length_drop]; omega),
      getD_drop']
    congr 1
    omega
  have hcst1 : cst (ι := ι) 1 = 1 := rfl
  -- index facts for the assembled list
  have hL0 : ∀ z : List (ι → ℚ), ∀ u v w r : ι → ℚ,
      ([u, v] ++ z ++ [w, r]).getD 0 0 = u := fun z u v w r => rfl
  have hL1 : ∀ z : List (ι → ℚ), ∀ u v w r : ι → ℚ,
      ([u, v] ++ z ++ [w, r]).getD 1 0 = v := fun z u v w r => rfl
  have hLmid : ∀ (z : List (ι → ℚ)) (u v w r : ι → ℚ) (i : ℕ), i < z.length →
      ([u, v] ++ z ++ [w, r]).getD (i+2) 0 = z.getD i 0 := by
    intro z u v w r i hi
    rw [List.getD_append _ _ _ _ (by simp; omega),
      show [u, v] ++ z = u :: v :: z from rfl,
      List.getD_cons_succ, List.getD_cons_succ]
  have hLn : ∀ (z : List (ι → ℚ)) (u v w r : ι → ℚ),
      ([u, v] ++ z ++ [w, r]).getD (z.length + 2) 0 = w := by
    intro z u v w r
    rw [List.getD_append_right _ _ _ _ (by simp), List.length_append]
    simp [show z.length + 2 - (2 + z.length) = 0 from by omega]
  have hLn1 : ∀ (z : List (ι → ℚ)) (u v w r : ι → ℚ),
      ([u, v] ++ z ++ [w, r]).getD (z.length + 3) 0 = r := by
    intro z u v w r
    rw [List.getD_append_right _ _ _ _ (by simp), List.length_append]
    simp [show z.length + 3 - (2 + z.length) = 1 from by omega]
  have hrow' : ∀ i, i < yi.length - 2 →
      (if i = 0 then (0 : ι → ℚ) else X.getD (i-1) 0)
        + cst 4 * X.getD i 0 + X.getD (i+1) 0 = Y2.getD i 0 := by
    intro i hi
    have h := hrow i hi
    rcases eq_or_ne i 0 with h0 | h0
    · subst h0
      rw [if_pos rfl] at h ⊢
      rw [getD_replicate' _ _ _ _ (by rw [hY0len]; omega),
        getD_replicate' _ _ _ _ (by rw [hY0len]; omega), hcst1, one_mul] at h
      exact h
    · rw [if_neg h0] at h ⊢
      rw [getD_replicate' _ _ _ _ (by rw [hY0len]; omega),
        getD_replicate' _ _ _ _ (by rw [hY0len]; omega),
        getD_replicate' _ _ _ _ (by rw [hY0len]; omega),
        hcst1, one_mul, one_mul] at h
      exact h
  have hY1getD : ∀ i, i < yi.length - 2 →
      Y1.getD i 0 = yi.getD (i+1) 0 - (if i = 0 then C1 else 0) := by
    intro i hi
    rcases eq_or_ne i 0 with h0 | h0
    · subst h0
      rw [if_pos rfl, hY1, getD_set_eq' _ _ _ _ (by rw [hY0len]; omega),
        headD_eq_getD, hY0getD 0 (by omega)]
    · rw [if_neg h0, sub_zero, hY1,
        getD_set_ne' _ _ _ _ _ (fun hh => h0 hh.symm), hY0getD i hi]
  have hY2getD : ∀ i, i < yi.length - 2 →
      Y2.getD i 0 = yi.getD (i+1) 0 - (if i = 0 then C1 else 0)
        - (if i = yi.length - 3 then CN else 0) := by
    intro i hi
    rcases eq_or_ne i (yi.length - 3) with hlast | hlast
    · rw [hlast, if_pos rfl, hY2]
      have hidx : Y1.length - 1 = yi.length - 3 := by rw [hY1len]; omega
      rw [← hidx, getD_set_eq' _ _ _ _ (by rw [hY1len]; omega),
        getLastD_eq_getD, hY1getD (Y1.length - 1) (by rw [hY1len]; omega), hidx]
    · rw [if_neg hlast, sub_zero, hY2,
        getD_set_ne' _ _ _ _ _
          (by rw [hY1len]; intro hh; exact hlast (by omega)),
        hY1getD i hi]
  have hXlast : X.getLastD 0 = X.getD (yi.length - 3) 0 := by
    rw [getLastD_eq_getD]
    congr 1
    rw [hXlen]
    omega
  rcases eq_or_ne j 0 with hj0 | hj0
  · subst hj0
    simp only [Nat.zero_add]
    rw [hL0, hL1, show (2:ℕ) = 0 + 2 from rfl, hLmid X _ _ _ _ 0
      (by rw [hXlen]; omega)]
    rw [hC1]
    funext t
    simp only [Pi.add_apply, Pi.sub_apply, Pi.mul_apply, Pi.div_apply,
      cst_apply, headD_eq_getD]
    field_simp
    ring
  rcases eq_or_ne j (yi.length - 1) with hjn | hjn
  · have hyiLast : yi.getLastD 0 = yi.getD ((yi.length - 3) + 2) 0 := by
      rw [getLastD_eq_getD]
      congr 1
      omega
    rw [hjn, show yi.length - 1 = (yi.length - 3) + 2 from by omega,
      hLmid X _ _ _ _ (yi.length - 3) (by rw [hXlen]; omega),
      show (yi.length - 3) + 2 + 1 = X.length + 2 from by rw [hXlen]; omega,
      hLn,
      show (yi.length - 3) + 2 + 2 = X.length + 3 from by rw [hXlen]; omega,
      hLn1]
    rw [hCN, hXlast, hyiLast]
    funext t
    simp only [Pi.add_apply, Pi.sub_apply, Pi.mul_apply, Pi.div_apply,
      cst_apply]
    field_simp
    ring
  · have hb1 : 1 ≤ j := by omega
    have hb2 : j ≤ yi.length - 2 := by omega
    have hLX : ∀ q, 2 ≤ q → q < X.length + 2 →
        ([cst (alpha / 6) + cst 2 * C1 - X.headD 0, C1] ++ X ++
          [CN, cst (beta / 6) + cst 2 * CN - X.getLastD 0]).getD q 0
        = X.getD (q - 2) 0 := by
      intro q h2 hq
      rw [show q = (q - 2) + 2 from by omega,
        hLmid X _ _ _ _ (q - 2) (by omega)]
      congr 1
    have hrj := hrow' (j - 1) (by omega)
    have hyj := hY2getD (j - 1) (by omega)
    rw [show j - 1 + 1 = j from by omega] at hrj hyj
    rw [hLX (j + 1) (by omega) (by rw [hXlen]; omega),
      show j + 1 - 2 = j - 1 from by omega]
    rcases eq_or_ne j 1 with h1 | h1
    · rw [if_pos (by omega : j - 1 = 0)] at hrj
      rw [if_pos (by omega : j - 1 = 0)] at hyj
      have hLj : ([cst (alpha / 6) + cst 2 * C1 - X.headD 0, C1] ++ X ++
          [CN, cst (beta / 6) + cst 2 * CN - X.getLastD 0]).getD j 0 = C1 := by
        rw [h1]; exact hL1 _ _ _ _ _
      rw [hLj]
      rcases eq_or_ne j (yi.length - 2) with h2 | h2
      · rw [show j + 2 = X.length + 2 from by rw [hXlen]; omega, hLn]
        rw [List.getD_eq_default _ _ (by rw [hXlen]; omega : X.length ≤ j)]
          at hrj
        rw [if_pos (by omega : j - 1 = yi.length - 3)] at hyj
        linear_combination hrj + hyj
      · rw [hLX (j + 2) (by omega) (by rw [hXlen]; omega),
          show j + 2 - 2 = j from by omega]
        rw [if_neg (by omega : j - 1 ≠ yi.length - 3), sub_zero] at hyj
        linear_combination hrj + hyj
    · rw [if_neg (by omega : j - 1 ≠ 0),
        show j - 1 - 1 = j - 2 from by omega] at hrj
      rw [if_neg (by omega : j - 1 ≠ 0), sub_zero] at hyj
      rw [hLX j (by omega) (by rw [hXlen]; omega)]
      rcases eq_or_ne j (yi.length - 2) with h2 | h2
      · rw [show j + 2 = X.length + 2 from by rw [hXlen]; omega, hLn]
        rw [List.getD_eq_default _ _ (by rw [hXlen]; omega : X.length ≤ j)]
          at hrj
        rw [if_pos (by omega : j - 1 = yi.length - 3)] at hyj
        linear_combination hrj + hyj
      · rw [hLX (j + 2) (by omega) (by rw [hXlen]; omega),
          show j + 2 - 2 = j from by omega]
        rw [if_neg (by omega : j - 1 ≠ yi.length - 3), sub_zero] at hyj
        linear_combination hrj + hyj

theorem getD_cons_cons {α : Type*} (a b : α) (l : List α) (q : ℕ) (d : α) :
    (a :: b :: l).getD q d =
      if q = 0 then a else if q = 1 then b else l.getD (q - 2) d := by
  match q with
  | 0 => rfl
  | 1 => rfl
  | (k+2) => simp [List.getD_cons_succ]

theorem getD_append_ite {α : Type*} (X B : List α) (q : ℕ) (d : α) :
    (X ++ B).getD q d =
      if q < X.length then X.getD q d else B.getD (q - X.length) d := by
  split
  · exact List.getD_append _ _ _ _ (by assumption)
  · exact List.getD_append_right _ _ _ _ (by omega)

/-- `calc_coeffs` returns `n+2` coefficients for `n ≥ 2` samples. -/
theorem calc_coeffs_length {ι : Type*} (yi : List (ι → ℚ)) (alpha beta : ℚ)
    (hn : 2 ≤ yi.length) :
    (calc_coeffs yi alpha beta).length = yi.length + 2 := by
  simp only [calc_coeffs]
  rw [List.length_append, List.length_append]
  rw [TDMAsolver_length _ _ _ _ (by simp) (by simp)]
  simp only [List.length_set, List.length_dropLast, List.length_drop,
    List.length_cons, List.length_singleton, List.length_nil]
  omega

/-- C6: for every value array `y` of shape `(n, ...)` with `n ≥ 4` and scalar
boundary parameters `alpha`, `beta`, `calc_coeffs` returns a coefficient
array `c` of length `n+2` satisfying `c[1] = (y[0] - alpha/6)/6` and
`c[n] = (y[n-1] - beta/6)/6`; the interior entries `c[2..n-1]` solve the
size-`(n-2)` tridiagonal system with sub/super-diagonals 1 and diagonal 4
against the right-hand side `y[1:n-1]` with `c[1]` subtracted from its first
entry and `c[n]` from its last; `c[0] = alpha/6 + 2*c[1] - c[2]` and
`c[n+1] = beta/6 + 2*c[n] - c[n-1]`; and the constructor appends one further
all-zero slice, so the stored coefficient array has length `n+3`. -/
theorem calc_coeffs_spec {ι : Type*} (yi : List (ι → ℚ)) (alpha beta : ℚ)
    (xi : List ℚ) (hn : 4 ≤ yi.length) :
    (calc_coeffs yi alpha beta).length = yi.length + 2 ∧
    (calc_coeffs yi alpha beta).getD 1 0
      = (yi.getD 0 0 - cst (alpha / 6)) / cst 6 ∧
    (calc_coeffs yi alpha beta).getD yi.length 0
      = (yi.getD (yi.length - 1) 0 - cst (beta / 6)) / cst 6 ∧
    tridiagMul (List.replicate (yi.length - 2) (cst 1))
        (List.replicate (yi.length - 2) (cst 4))
        (List.replicate (yi.length - 2) (cst 1))
        (((calc_coeffs yi alpha beta).drop 2).take (yi.length - 2))
      = (((yi.drop 1).dropLast).set 0 (((yi.drop 1).dropLast).getD 0 0
            - (calc_coeffs yi alpha beta).getD 1 0)).set (yi.length - 3)
          ((((yi.drop 1).dropLast).set 0 (((yi.drop 1).dropLast).getD 0 0
            - (calc_coeffs yi alpha beta).getD 1 0)).getD (yi.length - 3) 0
            - (calc_coeffs yi alpha beta).getD yi.length 0) ∧
    (calc_coeffs yi alpha beta).getD 0 0
      = cst (alpha / 6) + cst 2 * (calc_coeffs yi alpha beta).getD 1 0
        - (calc_coeffs yi alpha beta).getD 2 0 ∧
    (calc_coeffs yi alpha beta).getD (yi.length + 1) 0
      = cst (beta / 6) + cst 2 * (calc_coeffs yi alpha beta).getD yi.length 0
        - (calc_coeffs yi alpha beta).getD (yi.length - 1) 0 ∧
    (CubicBSpline0 xi yi).c = calc_coeffs yi 0 0 ++ [0] ∧
    (CubicBSpline0 xi yi).c.length = yi.length + 3 := by
  have hlen := calc_coeffs_length yi alpha beta (by omega)
  have hlen0 := calc_coeffs_length yi 0 0 (by omega)
  have hstored : (CubicBSpline0 xi yi).c.length = yi.length + 3 := by
    show (calc_coeffs yi 0 0 ++ [0]).length = yi.length + 3
    rw [List.length_append, hlen0]
    rfl
  refine ⟨hlen, ?_⟩
  simp only [calc_coeffs]
  simp only [List.cons_append, List.nil_append]
  set Y0 := (yi.drop 1).dropLast with hY0
  set C1 := (yi.headD 0 - cst (ι := ι) (alpha / 6)) / cst 6 with hC1
  set CN := (yi.getLastD 0 - cst (ι := ι) (beta / 6)) / cst 6 with hCN
  set Y1 := Y0.set 0 (Y0.headD 0 - C1) with hY1
  set Y2 := Y1.set (Y1.length - 1) (Y1.getLastD 0 - CN) with hY2
  set X := TDMAsolver (List.replicate Y0.length (cst (ι := ι) 1))
      ((List.replicate Y0.length (cst (ι := ι) 1)).map (fun v => cst 3 + v))
      (List.replicate Y0.length (cst (ι := ι) 1)) Y2 with hX
  set A0 := cst (ι := ι) (alpha / 6) + cst 2 * C1 - X.headD 0 with hA0
  set CL := cst (ι := ι) (beta / 6) + cst 2 * CN - X.getLastD 0 with hCL
  set L := A0 :: C1 :: (X ++ [CN, CL]) with hLdef
  have hY0len : Y0.length = yi.length - 2 := by
    rw [hY0]
    simp only [List.length_dropLast, List.length_drop]
    omega
  have hY1len : Y1.length = yi.length - 2 := by
    rw [hY1, List.length_set]; exact hY0len
  have hY2len : Y2.length = yi.length - 2 := by
    rw [hY2, List.length_set]; exact hY1len
  have hXlen : X.length = yi.length - 2 := by
    rw [hX]
    rw [TDMAsolver_length _ _ _ _ (by simp [hY2len, hY0len])
      (by simp [hY2len, hY0len])]
    exact hY2len
  have hg0 : L.getD 0 0 = A0 := rfl
  have hg1 : L.getD 1 0 = C1 := rfl
  have hg2 : L.getD 2 0 = X.getD 0 0 := by
    rw [hLdef, getD_cons_cons, if_neg (by omega), if_neg (by omega),
      getD_append_ite, if_pos (by rw [hXlen]; omega)]
  have hgn : L.getD yi.length 0 = CN := by
    rw [hLdef, getD_cons_cons, if_neg (by omega), if_neg (by omega),
      getD_append_ite, if_neg (by rw [hXlen]; omega), hXlen,
      show yi.length - 2 - (yi.length - 2) = 0 from by omega]
    rfl
  have hgn1 : L.getD (yi.length + 1) 0 = CL := by
    rw [hLdef, getD_cons_cons, if_neg (by omega), if_neg (by omega),
      getD_append_ite, if_neg (by rw [hXlen]; omega), hXlen,
      show yi.length + 1 - 2 - (yi.length - 2) = 1 from by omega]
    rfl
  have hgnm1 : L.getD (yi.length - 1) 0 = X.getD (yi.length - 3) 0 := by
    rw [hLdef, getD_cons_cons, if_neg (by omega), if_neg (by omega),
      getD_append_ite, if_pos (by rw [hXlen]; omega)]
    congr 1
  refine ⟨?_, ?_, ?_, ?_, ?_, rfl, hstored⟩
  · rw [hg1, hC1, headD_eq_getD]
  · rw [hgn, hCN, getLastD_eq_getD]
  · have hdrop : ∀ (u v : ι → ℚ) (l : List (ι → ℚ)), (u :: v :: l).drop 2 = l :=
      fun u v l => rfl
    rw [hLdef, hdrop, List.take_left' hXlen]
    rw [hg1, hgn]
    have hY1alt : Y0.set 0 (Y0.getD 0 0 - C1) = Y1 := by
      rw [hY1, headD_eq_getD]
    rw [hY1alt]
    have h02 : Y0.length = Y2.length := by rw [hY0len, hY2len]
    rw [← hY0len, hX, b_replicate, h02]
    rw [ones_fours_solved Y2, hY2, getLastD_eq_getD,
      show Y1.length - 1 = yi.length - 3 from by rw [hY1len]; omega]
  · rw [hg0, hg1, hg2, hA0, headD_eq_getD]
  · rw [hgn1, hgn, hgnm1, hCL, getLastD_eq_getD,
      show X.length - 1 = yi.length - 3 from by rw [hXlen]; omega]

/-! ### Interpolation at grid points -/

theorem getD_map_range (f : ℕ → ℚ) (n i : ℕ) (h : i < n) :
    ((List.range n).map f).getD i 0 = f i := by
  rw [List.getD_eq_getElem _ _ (by simpa using h)]
  simp

theorem uniformGrid_length (x0 h : ℚ) (n : ℕ) :
    (uniformGrid x0 h n).length = n := by
  rw [uniformGrid, List.length_map, List.length_range]

theorem uniformGrid_getD (x0 h : ℚ) (n i : ℕ) (hi : i < n) :
    (uniformGrid x0 h n).getD i 0 = x0 + i * h := by
  rw [uniformGrid]
  exact getD_map_range _ _ _ hi

theorem uniformGrid_headD (x0 h : ℚ) (n : ℕ) (hn : 1 ≤ n) :
    (uniformGrid x0 h n).headD 0 = x0 := by
  rw [headD_eq_getD, uniformGrid_getD _ _ _ _ (by omega)]
  norm_num

theorem uniformGrid_getLastD (x0 h : ℚ) (n : ℕ) (hn : 1 ≤ n) :
    (uniformGrid x0 h n).getLastD 0 = x0 + ((n - 1 : ℕ) : ℚ) * h := by
  rw [getLastD_eq_getD, uniformGrid_length,
    uniformGrid_getD _ _ _ _ (by omega)]

theorem foldl_range_four {ι : Type*} (g : ℕ → (ι → ℚ)) :
    (List.range 4).foldl (fun y i => y + g i) 0 = g 0 + g 1 + g 2 + g 3 := by
  rw [show List.range 4 = [0, 1, 2, 3] from rfl]
  show 0 + g 0 + g 1 + g 2 + g 3 = _
  rw [zero_add]

theorem astype_int64_natCast (p : ℕ) : astype_int64 ((p : ℕ) : ℚ) = (p : ℤ) := by
  unfold astype_int64
  rw [if_neg (not_lt.mpr (by positivity)), Int.floor_natCast]

theorem npIndex_natCast {α : Type*} [Zero α] (c : List α) (q : ℕ) :
    npIndex c ((q : ℕ) : ℤ) = c.getD q 0 := by
  unfold npIndex
  rw [if_neg (not_lt.mpr (by positivity))]
  simp

theorem smul_eq_cst_mul {ι : Type*} (q : ℚ) (f : ι → ℚ) :
    q • f = cst q * f := by
  funext t
  simp [cst, Pi.smul_apply, smul_eq_mul]

/-- C4: for every uniformly spaced strictly increasing grid of `n ≥ 4`
points and every value array sampled on it, with the default boundary
parameters `alpha = beta = 0`, evaluating `interp` exactly at the grid
points returns the original sample values (exactly, in exact arithmetic). -/
theorem interp_at_knots {ι : Type*} (x0 h : ℚ) (n : ℕ) (yi : List (ι → ℚ))
    (hh : 0 < h) (hn : 4 ≤ n) (hlen : yi.length = n) :
    interp (uniformGrid x0 h n) (CubicBSpline0 (uniformGrid x0 h n) yi).c
      (uniformGrid x0 h n) = yi := by
  have hne : h ≠ 0 := ne_of_gt hh
  have hcast : ((n - 1 : ℕ) : ℚ) ≠ 0 := Nat.cast_ne_zero.mpr (by omega)
  have hstep : ((uniformGrid x0 h n).getLastD 0 - (uniformGrid x0 h n).headD 0)
      / (((uniformGrid x0 h n).length - 1 : ℕ) : ℚ) = h := by
    rw [uniformGrid_getLastD _ _ _ (by omega), uniformGrid_headD _ _ _ (by omega),
      uniformGrid_length, add_sub_cancel_left, mul_div_cancel_left₀ _ hcast]
  simp only [interp]
  rw [hstep]
  rw [uniformGrid_headD _ _ _ (by omega)]
  refine List.ext_getElem ?_ ?_
  · rw [List.length_map, uniformGrid_length, hlen]
  intro p h1 h2
  have hp : p < n := by
    rw [List.length_map, uniformGrid_length] at h1
    exact h1
  rw [List.getElem_map]
  have hpl : p < (uniformGrid x0 h n).length := by
    rw [uniformGrid_length]; exact hp
  have hxp : (uniformGrid x0 h n)[p] = x0 + (p : ℚ) * h := by
    rw [← List.getD_eq_getElem _ 0 hpl]
    exact uniformGrid_getD x0 h n p hp
  rw [hxp]
  have haux : (x0 + (p:ℚ) * h - x0) / h = ((p : ℕ) : ℚ) := by
    rw [add_sub_cancel_left, mul_div_cancel_right₀ _ hne]
  rw [haux, astype_int64_natCast]
  rw [foldl_range_four]
  push_cast
  ring_nf
  have hK1 : cubic_Bspline_kernel |(1:ℚ)| = 1 := by norm_num [cubic_Bspline_kernel]
  have hK0 : cubic_Bspline_kernel |(0:ℚ)| = 4 := by norm_num [cubic_Bspline_kernel]
  have hKm1 : cubic_Bspline_kernel |(-1:ℚ)| = 1 := by norm_num [cubic_Bspline_kernel]
  have hKm2 : cubic_Bspline_kernel |(-2:ℚ)| = 0 := by norm_num [cubic_Bspline_kernel]
  rw [hK1, hK0, hKm1, hKm2]
  rw [show ((1:ℤ) + (p:ℤ)) = ((p + 1 : ℕ) : ℤ) from by push_cast; ring,
    show ((2:ℤ) + (p:ℤ)) = ((p + 2 : ℕ) : ℤ) from by push_cast; ring,
    show ((3:ℤ) + (p:ℤ)) = ((p + 3 : ℕ) : ℤ) from by push_cast; ring]
  rw [npIndex_natCast, npIndex_natCast, npIndex_natCast, npIndex_natCast]
  rw [one_smul, one_smul, zero_smul, add_zero, smul_eq_cst_mul]
  have hclen : (calc_coeffs yi 0 0).length = yi.length + 2 :=
    calc_coeffs_length yi 0 0 (by omega)
  have hs : ∀ q, q < n + 2 →
      (CubicBSpline0 (uniformGrid x0 h n) yi).c.getD q 0
        = (calc_coeffs yi 0 0).getD q 0 := by
    intro q hq
    show ((calc_coeffs yi 0 0) ++ [0]).getD q 0 = _
    rw [List.getD_append _ _ _ _ (by rw [hclen, hlen]; omega)]
  rw [hs p (by omega), hs (p+1) (by omega), hs (p+2) (by omega)]
  have hwin := calc_coeffs_window yi 0 0 (by omega) p (by omega)
  rw [← List.getD_eq_getElem yi 0 h2]
  linear_combination hwin

/-- C3 (amended): per query point, `interp` computes `aux = (x - xi[0])/h`
with `h = (xi[n-1] - xi[0])/(n-1)`, the base control-index
`k = trunc(aux) - 1` where `trunc` is `astype(int64)` rounding toward zero
(equal to `floor(aux)` whenever `aux ≥ 0`, so for every in-range query), and
accumulates exactly the four terms `K(|aux - (k+j)|) * c[k+j+1]`,
`j = 0,1,2,3`: four consecutive control coefficients
`c[trunc(aux)] .. c[trunc(aux)+3]`, the kernel being sampled at offsets
`-1, 0, 1, 2` relative to `trunc(aux)` in that generation order. -/
theorem interp_window {ι : Type*} (xi : List ℚ) (c : List (ι → ℚ))
    (x : List ℚ) (p : ℕ) (hp : p < x.length) :
    ((interp xi c x).getD p 0 =
      cubic_Bspline_kernel
          |(x.getD p 0 - xi.headD 0) /
              ((xi.getLastD 0 - xi.headD 0) / ((xi.length - 1 : ℕ) : ℚ)) -
            ((astype_int64 ((x.getD p 0 - xi.headD 0) /
              ((xi.getLastD 0 - xi.headD 0) / ((xi.length - 1 : ℕ) : ℚ))) - 1 : ℤ) : ℚ)| •
        npIndex c (astype_int64 ((x.getD p 0 - xi.headD 0) /
              ((xi.getLastD 0 - xi.headD 0) / ((xi.length - 1 : ℕ) : ℚ))) - 1 + 1)
      + cubic_Bspline_kernel
          |(x.getD p 0 - xi.headD 0) /
              ((xi.getLastD 0 - xi.headD 0) / ((xi.length - 1 : ℕ) : ℚ)) -
            ((astype_int64 ((x.getD p 0 - xi.headD 0) /
              ((xi.getLastD 0 - xi.headD 0) / ((xi.length - 1 : ℕ) : ℚ))) - 1 + 1 : ℤ) : ℚ)| •
        npIndex c (astype_int64 ((x.getD p 0 - xi.headD 0) /
              ((xi.getLastD 0 - xi.headD 0) / ((xi.length - 1 : ℕ) : ℚ))) - 1 + 2)
      + cubic_Bspline_kernel
          |(x.getD p 0 - xi.headD 0) /
              ((xi.getLastD 0 - xi.headD 0) / ((xi.length - 1 : ℕ) : ℚ)) -
            ((astype_int64 ((x.getD p 0 - xi.headD 0) /
              ((xi.getLastD 0 - xi.headD 0) / ((xi.length - 1 : ℕ) : ℚ))) - 1 + 2 : ℤ) : ℚ)| •
        npIndex c (astype_int64 ((x.getD p 0 - xi.headD 0) /
              ((xi.getLastD 0 - xi.headD 0) / ((xi.length - 1 : ℕ) : ℚ))) - 1 + 3)
      + cubic_Bspline_kernel
          |(x.getD p 0 - xi.headD 0) /
              ((xi.getLastD 0 - xi.headD 0) / ((xi.length - 1 : ℕ) : ℚ)) -
            ((astype_int64 ((x.getD p 0 - xi.headD 0) /
              ((xi.getLastD 0 - xi.headD 0) / ((xi.length - 1 : ℕ) : ℚ))) - 1 + 3 : ℤ) : ℚ)| •
        npIndex c (astype_int64 ((x.getD p 0 - xi.headD 0) /
              ((xi.getLastD 0 - xi.headD 0) / ((xi.length - 1 : ℕ) : ℚ))) - 1 + 4)) ∧
    (∀ q : ℚ, 0 ≤ q → astype_int64 q = ⌊q⌋) := by
  constructor
  · simp only [interp]
    rw [List.getD_eq_getElem _ _ (by simpa using hp), List.getElem_map,
      ← List.getD_eq_getElem x 0 hp, foldl_range_four]
    push_cast
    ring_nf
  · intro q hq
    unfold astype_int64
    rw [if_neg (not_lt.mpr hq)]

theorem npIndex_apply {ι : Type*} (c : List (ι → ℚ)) (k : ℤ) (t : ι) :
    npIndex c k t = npIndex (slget t c) k := by
  unfold npIndex
  rw [slget_length]
  split_ifs <;> rw [slget_getD]

/-- A constant sample array of four values 6 on the grid `[0,1,2,3]`:
concrete data for evaluating the interpolator at an out-of-range query. -/
def wYi6 : List (Unit → ℚ) := [cst 6, cst 6, cst 6, cst 6]

theorem wYi6_coeffs :
    slget () (CubicBSpline0 [0,1,2,3] wYi6).c = [1, 1, 1, 1, 1, 1, 0] := by
  show slget () (calc_coeffs wYi6 0 0 ++ [(0 : Unit → ℚ)]) = _
  rw [slget_append]
  norm_num [slget, calc_coeffs, wYi6, cst, TDMAsolver, tdmaForward, tdmaBack,
    Pi.add_apply, Pi.sub_apply, Pi.div_apply, Pi.mul_apply, Pi.zero_apply]

/-- Value the code model produces at the out-of-range query `-5/2` on the
grid `[0,1,2,3]` with constant samples 6: `astype(np.int64)` truncates
`-5/2` toward zero to `-2`, so the base index is `k = -3` and (after the
numpy wrap of the negative coefficient indices) the accumulated value is
`23/8 * c[5] + 23/8 * c[6] + 1/8 * c[0] = 3`. -/
theorem interp_trunc_value :
    ((interp [0,1,2,3] (CubicBSpline0 [0,1,2,3] wYi6).c [-(5:ℚ)/2]).getD 0 0) () = 3 := by
  simp only [interp, List.map_cons, List.map_nil, List.getD_cons_zero]
  rw [foldl_range_four]
  simp only [Pi.add_apply, Pi.smul_apply, smul_eq_mul, npIndex_apply, wYi6_coeffs]
  have hceil : ⌈(-(5/2) : ℚ)⌉ = -2 := by rw [Int.ceil_eq_iff]; norm_num
  norm_num [astype_int64, npIndex, cubic_Bspline_kernel, hceil, abs_of_nonneg]
  norm_num [show ((5:ℤ).toNat = 5) from rfl, show ((6:ℤ).toNat = 6) from rfl,
    List.getElem_cons_succ, List.getElem_cons_zero]

/-- Model of a single query evaluation following the SPECIFICATION wording:
the base control-index is `k = floor(aux) - 1` (mathematical floor), with
every other step identical to the code model `interp`. Used only to compare
against `interp`, whose base index comes from `astype(np.int64)`,
truncation toward zero. -/
def interpFloor_point {ι : Type*} (xi : List ℚ) (c : List (ι → ℚ)) (xq : ℚ) :
    ι → ℚ :=
  let h := (xi.getLastD 0 - xi.headD 0) / ((xi.length - 1 : ℕ) : ℚ)
  let aux := (xq - xi.headD 0) / h
  let k0 : ℤ := ⌊aux⌋ - 1
  (List.range 4).foldl
    (fun (y : ι → ℚ) (i : ℕ) =>
      y + cubic_Bspline_kernel |aux - ((k0 + (i : ℤ) : ℤ) : ℚ)| •
            npIndex c (k0 + (i : ℤ) + 1)) 0

/-- Value the floor-based formula of the specification produces at the same
query: `floor(-5/2) = -3`, base index `k = -4`, accumulated value `25/8`. -/
theorem interpFloor_value :
    (interpFloor_point [0,1,2,3] (CubicBSpline0 [0,1,2,3] wYi6).c (-(5:ℚ)/2)) () = 25/8 := by
  simp only [interpFloor_point]
  rw [foldl_range_four]
  simp only [Pi.add_apply, Pi.smul_apply, smul_eq_mul, npIndex_apply, wYi6_coeffs]
  have hfloor : ⌊(-(5/2) : ℚ)⌋ = -3 := by rw [Int.floor_eq_iff]; norm_num
  norm_num [npIndex, cubic_Bspline_kernel, hfloor, abs_of_nonneg]
  norm_num [show ((4:ℤ).toNat = 4) from rfl, show ((5:ℤ).toNat = 5) from rfl,
    show ((6:ℤ).toNat = 6) from rfl,
    List.getElem_cons_succ, List.getElem_cons_zero]

/-- C3 counterexample: the code does NOT compute `k = floor(aux) - 1`.
`aux.astype(np.int64)` truncates toward zero, which differs from the floor
for negative non-integer `aux`. At the query `-5/2` on the grid `[0,1,2,3]`
with constant samples 6, the code model returns 3 while the floor-based
formula of the claim returns 25/8. -/
theorem interp_base_index_not_floor :
    ((interp [0,1,2,3] (CubicBSpline0 [0,1,2,3] wYi6).c [-(5:ℚ)/2]).getD 0 0) () ≠
      (interpFloor_point [0,1,2,3] (CubicBSpline0 [0,1,2,3] wYi6).c (-(5:ℚ)/2)) () := by
  rw [interp_trunc_value, interpFloor_value]
  norm_num

/-- Witness for the amended window theorem: its hypothesis holds at the
concrete one-point query list, and the truncation clause instantiated there. -/
theorem interp_window_witness :
    (0 < ([-(5:ℚ)/2]).length) ∧ (∀ q : ℚ, 0 ≤ q → astype_int64 q = ⌊q⌋) :=
  ⟨by norm_num,
    (interp_window [0, 1, 2, 3] ([] : List (Unit → ℚ)) [-(5:ℚ)/2] 0 (by norm_num)).2⟩

/-- Witness for the knot-reproduction theorem: a concrete uniform grid of 4
points with step 1 and the constant sample array, hypotheses discharged. -/
theorem interp_at_knots_witness :
    ((0:ℚ) < 1 ∧ 4 ≤ 4 ∧ wYi6.length = 4) ∧
    interp (uniformGrid 0 1 4) (CubicBSpline0 (uniformGrid 0 1 4) wYi6).c
      (uniformGrid 0 1 4) = wYi6 :=
  ⟨⟨by norm_num, le_refl 4, rfl⟩,
    interp_at_knots 0 1 4 wYi6 (by norm_num) (le_refl 4) rfl⟩

/-- Witness for the coefficient-construction theorem at concrete data:
its hypothesis holds for the length-4 sample array, and two of the proved
conjuncts instantiated there. -/
theorem calc_coeffs_spec_witness :
    4 ≤ wYi6.length ∧ (calc_coeffs wYi6 0 0).length = wYi6.length + 2 ∧
      (CubicBSpline0 [0, 1, 2, 3] wYi6).c.length = wYi6.length + 3 :=
  ⟨by norm_num [wYi6],
    (calc_coeffs_spec wYi6 0 0 [0, 1, 2, 3] (by norm_num [wYi6])).1,
    (calc_coeffs_spec wYi6 0 0 [0, 1, 2, 3] (by norm_num [wYi6])).2.2.2.2.2.2.2⟩

/-- C1 (amended): construction performs NO validation. The module contains
no `raise` statement and no exception class, so `CubicBSpline(xi, yi)` never
fails with `DegenerateGridError` or `ShapeError`: for every grid `xi`
(of any length, matching or not) and every value array with at least 3
samples (below 3 the code dies with an IndexError inside `TDMAsolver`, not
with the claimed exceptions) it returns a fitted interpolator storing the
grid unchanged and `yi.length + 3` coefficient slices. -/
theorem construct_no_validation {ι : Type*} (xi : List ℚ) (yi : List (ι → ℚ))
    (hn : 3 ≤ yi.length) :
    (CubicBSpline0 xi yi).xi = xi ∧ (CubicBSpline0 xi yi).c.length = yi.length + 3 := by
  refine ⟨rfl, ?_⟩
  show (calc_coeffs yi 0 0 ++ [0]).length = yi.length + 3
  rw [List.length_append, calc_coeffs_length yi 0 0 (by omega)]
  rfl

/-- C1 counterexample: a degenerate grid of length 3 (the claim says it
must fail with `DegenerateGridError`) is accepted and yields the explicit
coefficient array `[1, 1, 1, 1, 1, 0]`, and a construction whose value
length (4) differs from its grid length (2) (the claim says it must fail
with `ShapeError`) also succeeds, returning the full 7 coefficient slices. -/
theorem construct_degenerate_accepted :
    slget () (CubicBSpline0 [0, 1, 2] [cst 6, cst 6, cst 6] : Fitted Unit).c
        = [1, 1, 1, 1, 1, 0] ∧
    (CubicBSpline0 [0, 1] wYi6).c.length = 7 := by
  constructor
  · show slget () (calc_coeffs [cst 6, cst 6, cst 6] 0 0 ++ [(0 : Unit → ℚ)]) = _
    rw [slget_append]
    norm_num [slget, calc_coeffs, cst, TDMAsolver, tdmaForward, tdmaBack,
      Pi.add_apply, Pi.sub_apply, Pi.div_apply, Pi.mul_apply, Pi.zero_apply]
  · show (calc_coeffs wYi6 0 0 ++ [(0 : Unit → ℚ)]).length = 7
    rw [List.length_append, calc_coeffs_length wYi6 0 0 (by norm_num [wYi6])]
    rfl

/-- Witness for the no-validation theorem: a grid of length 2 paired with
3 samples (both conditions the claim says must fail) still constructs. -/
theorem construct_no_validation_witness :
    3 ≤ ([cst 6, cst 6, cst 6] : List (Unit → ℚ)).length ∧
    (CubicBSpline0 [0, 1] [cst 6, cst 6, cst 6] : Fitted Unit).c.length
      = ([cst 6, cst 6, cst 6] : List (Unit → ℚ)).length + 3 :=
  ⟨by norm_num,
    (construct_no_validation [0, 1] [cst 6, cst 6, cst 6] (by norm_num)).2⟩

/-- The shape-level failures numpy raises inside `interp`: a failed
`reshape`, a failed ufunc `broadcast`, and indexing `shape[0]` of a 0-d
query. All three surface as numpy `ValueError`/`IndexError` — the module
defines no `ShapeError` exception class. -/
inductive NpErr where
  | reshape : NpErr
  | broadcast : NpErr
  | index : NpErr
deriving DecidableEq

/-- Numpy broadcasting of two shapes, on the REVERSED dimension lists
(numpy aligns trailing dimensions): dimensions agree, or one of them is 1. -/
def bcastRev : List ℕ → List ℕ → Option (List ℕ)
  | [], s2 => some s2
  | a :: s1, [] => some (a :: s1)
  | a :: s1, b :: s2 =>
    match bcastRev s1 s2 with
    | none => none
    | some r =>
      if a = b then some (a :: r)
      else if a = 1 then some (b :: r)
      else if b = 1 then some (a :: r)
      else none

/-- Numpy broadcasting of two shapes. -/
def broadcast (s1 s2 : List ℕ) : Option (List ℕ) :=
  (bcastRev s1.reverse s2.reverse).map List.reverse

/-- The shape computation `interp` performs on a stored coefficient array of
shape `cshape` and a query array of shape `xshape` (ordered case). The code
builds `y` of shape `(x.shape[0],) + c.shape[1:]`, reshapes
`abs(aux - k)` (shape `xshape`) to `(x.shape[0],) + ax_expand` where
`ax_expand = tuple(range(1, ndim))` -- literally the integers `1..ndim-1`,
not a tuple of ones — multiplies the kernel of that against the fancy-indexed
`c[k]` of shape `xshape + cshape[1:]`, and accumulates in place into `y`,
which requires the broadcast result to equal the shape of `y` exactly. -/
def interpShape (cshape xshape : List ℕ) : Except NpErr (List ℕ) :=
  match xshape with
  | [] => .error .index
  | q0 :: _ =>
    let yshape := q0 :: cshape.tail
    let target := q0 :: List.range' 1 (cshape.length - 1)
    if xshape.prod ≠ target.prod then .error .reshape
    else
      match broadcast target (xshape ++ cshape.tail) with
      | none => .error .broadcast
      | some r =>
        match broadcast yshape r with
        | none => .error .broadcast
        | some r2 => if r2 = yshape then .ok yshape else .error .broadcast

theorem bcastRev_length (s1 s2 r : List ℕ) (h : bcastRev s1 s2 = some r) :
    r.length = max s1.length s2.length := by
  induction s1 generalizing s2 r with
  | nil =>
    simp only [bcastRev] at h
    cases h
    simp
  | cons a s1 ih =>
    cases s2 with
    | nil =>
      simp only [bcastRev] at h
      cases h
      simp
    | cons b s2 =>
      simp only [bcastRev] at h
      rcases hb : bcastRev s1 s2 with _ | r0
      · rw [hb] at h
        simp at h
      · rw [hb] at h
        have hlen := ih s2 r0 hb
        simp only [List.length_cons]
        split_ifs at h <;> (cases h; simp [hlen]; omega)

theorem broadcast_length (s1 s2 r : List ℕ) (h : broadcast s1 s2 = some r) :
    r.length = max s1.length s2.length := by
  simp only [broadcast, Option.map_eq_some'] at h
  obtain ⟨r0, hr0, hrev⟩ := h
  have := bcastRev_length _ _ _ hr0
  simp only [List.length_reverse] at this
  rw [← hrev]
  simpa using this

theorem range'_prod_two (k : ℕ) (hk : 2 ≤ k) : 2 ≤ (List.range' 1 k).prod := by
  induction k with
  | zero => omega
  | succ m ih =>
    rcases Nat.lt_or_ge m 2 with hm | hm
    · interval_cases m
      · omega
      · norm_num [List.range']
    · rw [List.range'_concat]
      rw [List.prod_append]
      have h2 := ih hm
      have : 1 ≤ 1 + 1 * m := by omega
      calc 2 ≤ (List.range' 1 m).prod * 1 := by omega
        _ ≤ (List.range' 1 m).prod * (1 + 1 * m) :=
          Nat.mul_le_mul_left _ this
        _ = (List.range' 1 m).prod * [1 + 1 * m].prod := by simp

/-- C2 (amended): a flat 1-D query of any length `q` is accepted exactly
when the fitted values have at most one trailing batch dimension
(`ndim ≤ 2`), returning shape `(q,) + batch`; for two or more batch
dimensions even the flat query fails — the reshape target
`(q,) + tuple(range(1, ndim))` has `q * (ndim-1)!` elements, not `q` —
and every query of dimensionality at least 2 is rejected as well (the
accumulation into `y` cannot match shapes). No `ShapeError` is involved:
the failures are numpy reshape/broadcast errors. -/
theorem interp_query_shapes (cshape xshape : List ℕ) (q : ℕ) :
    (cshape.tail.length ≤ 1 → interpShape cshape [q] = .ok (q :: cshape.tail)) ∧
    (2 ≤ cshape.tail.length → 1 ≤ q → interpShape cshape [q] = .error .reshape) ∧
    (2 ≤ xshape.length → ∀ s, interpShape cshape xshape ≠ .ok s) := by
  refine ⟨?_, ?_, ?_⟩
  · intro h1
    rcases cshape with _ | ⟨a, rest⟩
    · simp [interpShape, broadcast, bcastRev]
    · rcases rest with _ | ⟨b, rest2⟩
      · simp [interpShape, broadcast, bcastRev]
      · have hr2 : rest2 = [] := by
          simp only [List.tail_cons, List.length_cons] at h1
          exact List.length_eq_zero.mp (by omega)
        subst hr2
        simp [interpShape, broadcast, bcastRev, List.range']
        split_ifs <;> simp_all [bcastRev]
  · intro h2 hq
    rcases cshape with _ | ⟨a, rest⟩
    · simp at h2
    · simp only [List.tail_cons] at h2
      have hp : 2 ≤ (List.range' 1 ((a :: rest).length - 1)).prod := by
        apply range'_prod_two
        simp only [List.length_cons]
        omega
      simp only [interpShape]
      rw [if_pos]
      simp only [List.prod_cons, List.prod_nil, mul_one]
      have hmul : q * 2 ≤ q * (List.range' 1 ((a :: rest).length - 1)).prod :=
        Nat.mul_le_mul_left q hp
      omega
  · intro hx s hok
    rcases xshape with _ | ⟨q0, rest⟩
    · simp at hx
    · simp only [interpShape] at hok
      split at hok
      · exact absurd hok (by simp)
      · split at hok
        · exact absurd hok (by simp)
        · rename_i r hr
          split at hok
          · exact absurd hok (by simp)
          · rename_i r2 hr2
            split at hok
            · rename_i hr2y
              have hl1 := broadcast_length _ _ _ hr
              have hl2 := broadcast_length _ _ _ hr2
              rw [hr2y] at hl2
              simp only [List.length_cons, List.length_append,
                List.length_range', List.length_tail] at hl1 hl2
              simp only [List.length_cons] at hx
              omega
            · exact absurd hok (by simp)

/-- C2 counterexample: for fitted values of shape `(4, 1, 1)` (coefficient
array shape `(7, 1, 1)`), BOTH query shapes the claim says are accepted —
the flat 1-D query (shape `(1,)`) and the batch-matching query (shape
`(1, 1)`) — fail with a numpy reshape error: the target
`(q0,) + tuple(range(1, 3)) = (q0, 1, 2)` holds `2*q0` elements. -/
theorem interp_query_shape_failures :
    interpShape [7, 1, 1] [1] = .error .reshape ∧
    interpShape [7, 1, 1] [1, 1] = .error .reshape :=
  ⟨rfl, rfl⟩

/-- Witness for the query-shape theorem: one batch dimension accepts the
flat query, two batch dimensions reject it, and a 2-D query is rejected. -/
theorem interp_query_shapes_witness :
    interpShape [7, 2] [5] = .ok [5, 2] ∧
    interpShape [7, 2, 3] [5] = .error .reshape ∧
    ∀ s, interpShape [7, 2] [5, 4] ≠ .ok s :=
  ⟨(interp_query_shapes [7, 2] [] 5).1 (by norm_num),
   (interp_query_shapes [7, 2, 3] [] 5).2.1 (by norm_num) (by norm_num),
   (interp_query_shapes [7, 2] [5, 4] 5).2.2 (by norm_num)⟩

/-- The forward permutation `CubicBSpline` computes for `axis > 0`:
`(axis,) + tuple(a for a in range(ndim) if not a == axis)`. -/
def ax_reorder (ndim axis : ℕ) : List ℕ :=
  axis :: (List.range ndim).filter (fun a => a ≠ axis)

/-- The restore permutation: `tuple(range(1, axis+1)) + (0,) +
tuple(range(axis+1, ndim))`. -/
def ax_restore (ndim axis : ℕ) : List ℕ :=
  List.range' 1 axis ++ [0] ++ List.range' (axis + 1) (ndim - (axis + 1))

theorem ax_reorder_eq (ndim axis : ℕ) (h1 : axis < ndim) :
    ax_reorder ndim axis
      = axis :: (List.range axis ++ List.range' (axis + 1) (ndim - (axis + 1))) := by
  unfold ax_reorder
  congr 1
  have hsplit : List.range ndim
      = List.range axis ++ (axis :: List.range' (axis + 1) (ndim - (axis + 1))) := by
    rw [List.range_eq_range', List.range_eq_range']
    have happ := List.range'_append 0 axis (ndim - axis) 1
    simp only [one_mul, zero_add] at happ
    rw [show ndim = ndim - axis + axis by omega, ← happ]
    congr 1
    rw [show ndim - axis = (ndim - (axis + 1)) + 1 by omega, List.range'_succ]
    congr 2
    omega
  rw [hsplit, List.filter_append, List.filter_cons]
  have hleft : (List.range axis).filter (fun a => decide (a ≠ axis)) = List.range axis := by
    rw [List.filter_eq_self]
    intro a ha
    simp only [List.mem_range] at ha
    simp only [decide_eq_true_eq]
    omega
  have hright : (List.range' (axis + 1) (ndim - (axis + 1))).filter
      (fun a => decide (a ≠ axis)) = List.range' (axis + 1) (ndim - (axis + 1)) := by
    rw [List.filter_eq_self]
    intro a ha
    rw [List.mem_range'_1] at ha
    simp only [decide_eq_true_eq]
    omega
  rw [hleft, hright]
  simp

theorem range_getD (n k : ℕ) (hk : k < n) : (List.range n).getD k 0 = k := by
  rw [List.getD_eq_getElem _ _ (by simpa using hk), List.getElem_range]

theorem range'_getD (s n k : ℕ) (hk : k < n) : (List.range' s n).getD k 0 = s + k := by
  rw [List.getD_eq_getElem _ _ (by simpa using hk), List.getElem_range']
  ring

theorem ax_reorder_getD (ndim axis k : ℕ) (h1 : axis < ndim) (hk : k < ndim) :
    (ax_reorder ndim axis).getD k 0 =
      if k = 0 then axis else if k ≤ axis then k - 1 else k := by
  rw [ax_reorder_eq ndim axis h1]
  rcases Nat.eq_zero_or_pos k with hk0 | hk0
  · subst hk0
    simp
  · obtain ⟨p, rfl⟩ : ∃ p, k = p + 1 := ⟨k - 1, by omega⟩
    rw [List.getD_cons_succ, getD_append_ite]
    simp only [List.length_range]
    by_cases hpa : p < axis
    · rw [if_pos hpa, range_getD _ _ hpa, if_neg (by omega), if_pos (by omega)]
      omega
    · rw [if_neg hpa, range'_getD _ _ _ (by omega), if_neg (by omega), if_neg (by omega)]
      omega

theorem ax_restore_getD (ndim axis k : ℕ) (h1 : axis < ndim) (hk : k < ndim) :
    (ax_restore ndim axis).getD k 0 =
      if k < axis then k + 1 else if k = axis then 0 else k := by
  unfold ax_restore
  rw [getD_append_ite, getD_append_ite]
  simp only [List.length_append, List.length_range', List.length_cons, List.length_nil]
  by_cases hka : k < axis
  · rw [if_pos (by omega), if_pos hka, range'_getD _ _ _ hka, if_pos hka]
    omega
  · by_cases hke : k = axis
    · subst hke
      rw [if_pos (by omega), if_neg (by omega), if_neg hka, if_pos rfl]
      simp
    · rw [if_neg (by omega), range'_getD _ _ _ (by omega), if_neg hka, if_neg hke]
      omega

theorem indexOf_range (k n : ℕ) (hk : k < n) : List.indexOf k (List.range n) = k := by
  have h := List.indexOf_getElem (List.nodup_range n) k (by simpa using hk)
  rwa [List.getElem_range] at h

theorem indexOf_range' (k s n : ℕ) (hs : s ≤ k) (hk : k < s + n) :
    List.indexOf k (List.range' s n) = k - s := by
  have h := List.indexOf_getElem (List.nodup_range' s n) (k - s) (by simp; omega)
  rwa [List.getElem_range', show s + 1 * (k - s) = k by omega] at h

theorem ax_reorder_indexOf (ndim axis k : ℕ) (h1 : axis < ndim) (hk : k < ndim) :
    List.indexOf k (ax_reorder ndim axis) =
      if k < axis then k + 1 else if k = axis then 0 else k := by
  rw [ax_reorder_eq ndim axis h1]
  by_cases hke : k = axis
  · subst hke
    rw [List.indexOf_cons_self, if_neg (by omega), if_pos rfl]
  · rw [List.indexOf_cons_ne _ (fun h => hke h.symm)]
    by_cases hka : k < axis
    · rw [List.indexOf_append_of_mem (by simpa using hka), indexOf_range _ _ hka,
        if_pos hka]
    · rw [List.indexOf_append_of_not_mem (by simpa using hka),
        indexOf_range' _ _ _ (by omega) (by omega), if_neg hka, if_neg hke]
      simp only [List.length_range]
      omega

theorem ax_restore_indexOf (ndim axis k : ℕ) (h0 : 0 < axis) (h1 : axis < ndim)
    (hk : k < ndim) :
    List.indexOf k (ax_restore ndim axis) =
      if k = 0 then axis else if k ≤ axis then k - 1 else k := by
  unfold ax_restore
  by_cases hk0 : k = 0
  · subst hk0
    rw [List.indexOf_append_of_mem (by simp),
      List.indexOf_append_of_not_mem (by rw [List.mem_range'_1]; omega)]
    simp
  · by_cases hka : k ≤ axis
    · rw [List.indexOf_append_of_mem
        (by apply List.mem_append_left; rw [List.mem_range'_1]; omega),
        List.indexOf_append_of_mem (by rw [List.mem_range'_1]; omega),
        indexOf_range' _ _ _ (by omega) (by omega), if_neg hk0, if_pos hka]
    · rw [List.indexOf_append_of_not_mem
        (by simp [List.mem_range'_1]; omega),
        indexOf_range' _ _ _ (by omega) (by omega), if_neg hk0, if_neg hka]
      simp only [List.length_append, List.length_range', List.length_cons,
        List.length_nil]
      omega

/-- `np.transpose(A, p)` on an `nd`-dimensional array modelled as a function
of its index list: entry `idx` of the transpose is the entry of `A` whose
index at position `k` is `idx` at the position where `p` holds `k`. -/
def transposeFun (nd : ℕ) (p : List ℕ) (A : List ℕ → ℚ) : List ℕ → ℚ :=
  fun idx => A ((List.range nd).map (fun k => idx.getD (List.indexOf k p) 0))

/-- View an `n`-long leading axis of an array as a list of its slices,
each slice a function of the remaining (batch) indices. -/
def axisSlices (n : ℕ) (A : List ℕ → ℚ) : List (List ℕ → ℚ) :=
  (List.range n).map (fun i => fun rest => A (i :: rest))

/-- Reassemble a list of batch slices into an array indexed by the full
index list. -/
def unslice (L : List (List ℕ → ℚ)) : List ℕ → ℚ :=
  fun idx => (L.getD (idx.headD 0) (fun _ => 0)) idx.tail

/-- The `axis = 0` (ordered) interpolation pipeline on an N-D array:
slice along the leading axis, fit, interpolate. -/
def interpAxis0 (xi : List ℚ) (n : ℕ) (A : List ℕ → ℚ) (x : List ℚ) :
    List ℕ → ℚ :=
  unslice (interp xi (CubicBSpline0 xi (axisSlices n A)).c x)

/-- The full `CubicBSpline` pipeline for a target `axis`: the code
transposes the values by `ax_reorder`, runs the ordered pipeline, and
transposes the result back by `ax_restore` (`axis = 0` skips both). -/
def interpAxis (ndim axis : ℕ) (xi : List ℚ) (n : ℕ) (A : List ℕ → ℚ)
    (x : List ℚ) : List ℕ → ℚ :=
  if axis = 0 then interpAxis0 xi n A x
  else transposeFun ndim (ax_restore ndim axis)
    (interpAxis0 xi n (transposeFun ndim (ax_reorder ndim axis) A) x)

theorem getD_map_range_any {α : Type*} (f : ℕ → α) (d : α) (n i : ℕ) (h : i < n) :
    ((List.range n).map f).getD i d = f i := by
  rw [List.getD_eq_getElem _ _ (by simpa using h)]
  simp

theorem transposeFun_reorder_restore (ndim axis : ℕ) (B : List ℕ → ℚ)
    (h0 : 0 < axis) (h1 : axis < ndim) (idx : List ℕ) (hidx : idx.length = ndim) :
    transposeFun ndim (ax_reorder ndim axis)
      (transposeFun ndim (ax_restore ndim axis) B) idx = B idx := by
  unfold transposeFun
  have hmap : ∀ k, k < ndim →
      ((List.range ndim).map
          (fun k => idx.getD (List.indexOf k (ax_reorder ndim axis)) 0)).getD
        (List.indexOf k (ax_restore ndim axis)) 0 = idx.getD k 0 := by
    intro k hk
    rw [ax_restore_indexOf ndim axis k h0 h1 hk]
    have hj : (if k = 0 then axis else if k ≤ axis then k - 1 else k) < ndim := by
      split_ifs <;> omega
    rw [getD_map_range_any _ _ _ _ hj]
    rw [ax_reorder_indexOf ndim axis _ h1 hj]
    congr 1
    split_ifs <;> omega
  have hlist : (List.range ndim).map (fun k =>
      ((List.range ndim).map
          (fun k => idx.getD (List.indexOf k (ax_reorder ndim axis)) 0)).getD
        (List.indexOf k (ax_restore ndim axis)) 0) = idx := by
    apply List.ext_getElem
    · simp [hidx]
    · intro i hi1 hi2
      rw [List.getElem_map, List.getElem_range]
      rw [hmap i (by simpa using hi1)]
      rw [List.getD_eq_getElem _ _ (by omega)]
  rw [hlist]

/-- C8: for every dimensionality `ndim` and axis `0 < axis < ndim`, the
restore permutation is the inverse of the reorder permutation (both are
length-`ndim` permutations and their compositions are the identity on
`0..ndim-1`), and consequently interpolating with `axis = j` yields, up to
the reorder transpose, the same results as interpolating the
`ax_reorder`-transposed value array with `axis = 0`. -/
theorem axis_transpose_equiv (ndim axis : ℕ) (xi : List ℚ) (n : ℕ)
    (A : List ℕ → ℚ) (x : List ℚ) (h0 : 0 < axis) (h1 : axis < ndim) :
    ((ax_reorder ndim axis).length = ndim ∧ (ax_restore ndim axis).length = ndim) ∧
    (∀ k, k < ndim →
      (ax_restore ndim axis).getD ((ax_reorder ndim axis).getD k 0) 0 = k ∧
      (ax_reorder ndim axis).getD ((ax_restore ndim axis).getD k 0) 0 = k) ∧
    (∀ idx, idx.length = ndim →
      transposeFun ndim (ax_reorder ndim axis)
          (interpAxis ndim axis xi n A x) idx
        = interpAxis ndim 0 xi n
            (transposeFun ndim (ax_reorder ndim axis) A) x idx) := by
  refine ⟨⟨?_, ?_⟩, ?_, ?_⟩
  · rw [ax_reorder_eq ndim axis h1]
    simp only [List.length_cons, List.length_append, List.length_range,
      List.length_range']
    omega
  · unfold ax_restore
    simp only [List.length_append, List.length_range', List.length_cons,
      List.length_nil]
    omega
  · intro k hk
    constructor
    · rw [ax_reorder_getD ndim axis k h1 hk]
      have hj : (if k = 0 then axis else if k ≤ axis then k - 1 else k) < ndim := by
        split_ifs <;> omega
      rw [ax_restore_getD ndim axis _ h1 hj]
      split_ifs <;> omega
    · rw [ax_restore_getD ndim axis k h1 hk]
      by_cases hka : k < axis
      · rw [if_pos hka, ax_reorder_getD ndim axis _ h1 (by omega),
          if_neg (by omega), if_pos (by omega)]
        omega
      · by_cases hke : k = axis
        · rw [if_neg hka, if_pos hke, ax_reorder_getD ndim axis _ h1 (by omega),
            if_pos rfl]
          omega
        · rw [if_neg hka, if_neg hke, ax_reorder_getD ndim axis _ h1 (by omega),
            if_neg (by omega), if_neg (by omega)]
  · intro idx hidx
    unfold interpAxis
    rw [if_neg (by omega), if_pos rfl]
    exact transposeFun_reorder_restore ndim axis _ h0 h1 idx hidx

/-- Witness for the transpose-equivalence theorem at `ndim = 3`,
`axis = 1`, a constant value array and a single query point. -/
theorem axis_transpose_equiv_witness :
    ((ax_reorder 3 1).length = 3 ∧ (ax_restore 3 1).length = 3) ∧
    ((ax_restore 3 1).getD ((ax_reorder 3 1).getD 2 0) 0 = 2) ∧
    transposeFun 3 (ax_reorder 3 1)
        (interpAxis 3 1 [0, 1, 2, 3] 4 (fun _ => 6) [0]) [0, 0, 0]
      = interpAxis 3 0 [0, 1, 2, 3] 4
          (transposeFun 3 (ax_reorder 3 1) (fun _ => 6)) [0] [0, 0, 0] :=
  ⟨(axis_transpose_equiv 3 1 [0, 1, 2, 3] 4 (fun _ => 6) [0]
      (by norm_num) (by norm_num)).1,
   ((axis_transpose_equiv 3 1 [0, 1, 2, 3] 4 (fun _ => 6) [0]
      (by norm_num) (by norm_num)).2.1 2 (by norm_num)).1,
   (axis_transpose_equiv 3 1 [0, 1, 2, 3] 4 (fun _ => 6) [0]
      (by norm_num) (by norm_num)).2.2 [0, 0, 0] (by norm_num)⟩

/-- A heap of numpy arrays: each cell holds one batched array along the
solved axis. References are cell indices. -/
abbrev Store (ι : Type*) := List (List (ι → ℚ))

/-- Read the array stored in cell `r`. -/
def sread {ι : Type*} (s : Store ι) (r : ℕ) : List (ι → ℚ) := s.getD r []

/-- Overwrite cell `r` in place (a numpy in-place assignment at array
granularity). -/
def swrite {ι : Type*} (s : Store ι) (r : ℕ) (v : List (ι → ℚ)) : Store ι :=
  s.set r v

/-- Allocate a fresh array (`np.zeros`, `np.ones`, `.copy()`, `3. + a`):
a new cell is appended, never aliasing an existing one. -/
def salloc {ι : Type*} (s : Store ι) (v : List (ι → ℚ)) : Store ι × ℕ :=
  (s ++ [v], s.length)

/-- The slice assignment `c[i:j-of-the-slice] = x` (`c[2:-2] = ...`):
entries before `i` and from `j` on are kept, `x` replaces the middle. -/
def setSlice {α : Type*} (c : List α) (i j : ℕ) (x : List α) : List α :=
  c.take i ++ x ++ c.drop j

/-- `TDMAsolver(a, b, c, d)` as it acts on the heap: the forward loop
overwrites `b` and `d` in place (net effect: the eliminated diagonal and
right-hand side), the back-substitution loop overwrites `b` with the
solution, which is also the returned reference. `a` and `c` are only
read. -/
def TDMAsolver_st {ι : Type*} (s : Store ι) (ra rb rc rd : ℕ) : Store ι × ℕ :=
  let a := sread s ra
  let b := sread s rb
  let c := sread s rc
  let d := sread s rd
  let p := tdmaForward a b c d
  let x := tdmaBack p.1 c p.2
  (swrite (swrite s rd p.2) rb x, rb)

/-- `calc_coeffs(yi)` as it acts on the heap, one step per line of the
code: allocate `c = zeros(n+2)`; write `c[1]`, then `c[-2]`; allocate the
copy `y = yi[1:-1].copy()`; write `y[0] -= c[1]`, then `y[-1] -= c[-2]`;
allocate `a = ones`, `b = 3 + a` and `a.copy()`; run the in-place solver
on them; write the slice `c[2:-2]`; write `c[0]`, then `c[-1]`. The cell
`ryi` holding the caller values is only ever read. -/
def calc_coeffs_st {ι : Type*} (s : Store ι) (ryi : ℕ) (alpha beta : ℚ) :
    Store ι × ℕ :=
  let yi := sread s ryi
  let n := yi.length
  let al := salloc s (List.replicate (n + 2) (0 : ι → ℚ))
  let rc := al.2
  let s1 := swrite al.1 rc ((sread al.1 rc).set 1
    ((yi.headD 0 - cst (alpha / 6)) / cst 6))
  let s2 := swrite s1 rc ((sread s1 rc).set n
    ((yi.getLastD 0 - cst (beta / 6)) / cst 6))
  let ay := salloc s2 ((yi.drop 1).dropLast)
  let ry := ay.2
  let s3 := swrite ay.1 ry ((sread ay.1 ry).set 0
    ((sread ay.1 ry).headD 0 - (sread ay.1 rc).getD 1 0))
  let s4 := swrite s3 ry ((sread s3 ry).set ((sread s3 ry).length - 1)
    ((sread s3 ry).getLastD 0 - (sread s3 rc).getD n 0))
  let aa := salloc s4 (List.replicate (sread s4 ry).length (cst (ι := ι) 1))
  let ra := aa.2
  let ab := salloc aa.1 ((sread aa.1 ra).map (fun v => cst 3 + v))
  let rb := ab.2
  let ac := salloc ab.1 (sread ab.1 ra)
  let ra2 := ac.2
  let st := TDMAsolver_st ac.1 ra rb ra2 ry
  let s5 := st.1
  let s6 := swrite s5 rc
    (setSlice (sread s5 rc) 2 ((sread s5 rc).length - 2) (sread s5 st.2))
  let s7 := swrite s6 rc ((sread s6 rc).set 0
    (cst (alpha / 6) + cst 2 * (sread s6 rc).getD 1 0 - (sread s6 rc).getD 2 0))
  let s8 := swrite s7 rc ((sread s7 rc).set ((sread s7 rc).length - 1)
    (cst (beta / 6) + cst 2 * (sread s7 rc).getD ((sread s7 rc).length - 2) 0
      - (sread s7 rc).getD ((sread s7 rc).length - 3) 0))
  (s8, rc)

/-- `_CubicBSpline.__init__` on the heap: build the coefficients and
allocate the concatenation with the all-zero slice. -/
def construct_st {ι : Type*} (s : Store ι) (ryi : ℕ) : Store ι × ℕ :=
  let p := calc_coeffs_st s ryi 0 0
  salloc p.1 (sread p.1 p.2 ++ [0])

/-- `interp(x)` on the heap: reads the stored coefficient cell and
allocates the result array; the fitted state is never written. -/
def interp_st {ι : Type*} (s : Store ι) (rc : ℕ) (xi x : List ℚ) :
    Store ι × ℕ :=
  salloc s (interp xi (sread s rc) x)

theorem sread_append_add {ι : Type*} (s l : Store ι) (k : ℕ) :
    sread (s ++ l) (s.length + k) = l.getD k [] := by
  unfold sread
  rw [List.getD_append_right _ _ _ _ (by omega)]
  congr 1
  omega

theorem sread_append_lt {ι : Type*} (s l : Store ι) (r : ℕ) (h : r < s.length) :
    sread (s ++ l) r = sread s r := by
  unfold sread
  exact List.getD_append _ _ _ _ h

theorem swrite_append_add {ι : Type*} (s l : Store ι) (k : ℕ) (v : List (ι → ℚ)) :
    swrite (s ++ l) (s.length + k) v = s ++ l.set k v := by
  unfold swrite
  rw [List.set_append_right _ _ (by omega)]
  congr 2
  omega

theorem sread_append_zero {ι : Type*} (s l : Store ι) :
    sread (s ++ l) s.length = l.getD 0 [] := by
  have h := sread_append_add s l 0
  simpa using h

theorem swrite_append_zero {ι : Type*} (s l : Store ι) (v : List (ι → ℚ)) :
    swrite (s ++ l) s.length v = s ++ l.set 0 v := by
  have h := swrite_append_add s l 0 v
  simpa using h

def cAOf {ι : Type*} (yi : List (ι → ℚ)) (alpha beta : ℚ) : List (ι → ℚ) :=
  ((List.replicate (yi.length + 2) 0).set 1 ((yi.headD 0 - cst (alpha / 6)) / cst 6)).set
    yi.length ((yi.getLastD 0 - cst (beta / 6)) / cst 6)

def y2Of {ι : Type*} (yi : List (ι → ℚ)) (alpha beta : ℚ) : List (ι → ℚ) :=
  let Y0 := (List.drop 1 yi).dropLast
  let Y1 := Y0.set 0 (Y0.headD 0 - (cAOf yi alpha beta).getD 1 0)
  Y1.set (Y1.length - 1) (Y1.getLastD 0 - (cAOf yi alpha beta).getD yi.length 0)

def aOf {ι : Type*} (yi : List (ι → ℚ)) (alpha beta : ℚ) : List (ι → ℚ) :=
  List.replicate (y2Of yi alpha beta).length (cst 1)

def bOf {ι : Type*} (yi : List (ι → ℚ)) (alpha beta : ℚ) : List (ι → ℚ) :=
  (aOf yi alpha beta).map (fun v => cst 3 + v)

def dOf {ι : Type*} (yi : List (ι → ℚ)) (alpha beta : ℚ) : List (ι → ℚ) :=
  (tdmaForward (aOf yi alpha beta) (bOf yi alpha beta) (aOf yi alpha beta)
    (y2Of yi alpha beta)).2

def xOf {ι : Type*} (yi : List (ι → ℚ)) (alpha beta : ℚ) : List (ι → ℚ) :=
  tdmaBack (tdmaForward (aOf yi alpha beta) (bOf yi alpha beta) (aOf yi alpha beta)
    (y2Of yi alpha beta)).1 (aOf yi alpha beta)
    (tdmaForward (aOf yi alpha beta) (bOf yi alpha beta) (aOf yi alpha beta)
      (y2Of yi alpha beta)).2

def cDOf {ι : Type*} (yi : List (ι → ℚ)) (alpha beta : ℚ) : List (ι → ℚ) :=
  let cB := setSlice (cAOf yi alpha beta) 2 ((cAOf yi alpha beta).length - 2)
    (xOf yi alpha beta)
  let cC := cB.set 0 (cst (alpha / 6) + cst 2 * cB.getD 1 0 - cB.getD 2 0)
  cC.set (cC.length - 1) (cst (beta / 6) + cst 2 * cC.getD (cC.length - 2) 0
    - cC.getD (cC.length - 3) 0)

/-- Running the heap-level coefficient construction only appends five
fresh cells (the final `c`, the eliminated right-hand side, `a`, the
solution and the `a`-copy); no pre-existing cell is touched. -/
theorem calc_coeffs_st_run {ι : Type*} (s : Store ι) (ryi : ℕ) (alpha beta : ℚ) :
    calc_coeffs_st s ryi alpha beta =
      (s ++ [cDOf (sread s ryi) alpha beta, dOf (sread s ryi) alpha beta,
             aOf (sread s ryi) alpha beta, xOf (sread s ryi) alpha beta,
             aOf (sread s ryi) alpha beta], s.length) := by
  simp only [calc_coeffs_st, salloc, TDMAsolver_st, cDOf, dOf, xOf, bOf, aOf, y2Of,
    cAOf, List.append_assoc,
    List.singleton_append, List.cons_append, List.nil_append,
    List.length_append, List.length_cons, List.length_nil, List.length_singleton,
    sread_append_zero, sread_append_add, swrite_append_zero, swrite_append_add,
    List.set_cons_zero, List.set_cons_succ, List.getD_cons_zero, List.getD_cons_succ]

theorem ext_getD {α : Type*} (l1 l2 : List α) (d : α) (hl : l1.length = l2.length)
    (h : ∀ i, i < l1.length → l1.getD i d = l2.getD i d) : l1 = l2 := by
  apply List.ext_getElem hl
  intro i h1 h2
  have hi := h i h1
  rwa [List.getD_eq_getElem _ _ h1, List.getD_eq_getElem _ _ h2] at hi

/-- The coefficient array assembled by the in-place writes equals the pure
`calc_coeffs` value. -/
theorem cDOf_eq_calc_coeffs {ι : Type*} (yi : List (ι → ℚ)) (alpha beta : ℚ)
    (hn : 3 ≤ yi.length) :
    cDOf yi alpha beta = calc_coeffs yi alpha beta := by
  obtain ⟨m, hm⟩ : ∃ m, yi.length = m + 3 := ⟨yi.length - 3, by omega⟩
  set c1v := (yi.headD 0 - cst (ι := ι) (alpha / 6)) / cst 6 with hc1v
  set cnv := (yi.getLastD 0 - cst (ι := ι) (beta / 6)) / cst 6 with hcnv
  have hcA : cAOf yi alpha beta
      = 0 :: c1v :: (List.replicate (m + 1) 0 ++ [cnv, 0]) := by
    apply ext_getD _ _ 0
    · simp [cAOf, List.length_set]
      omega
    · intro i hi
      simp only [cAOf, List.length_set, List.length_replicate] at hi
      rw [hm] at hi
      unfold cAOf
      rw [← hc1v, ← hcnv, hm, getD_cons_cons, getD_append_ite]
      simp only [List.length_replicate]
      by_cases hi1 : i = 1
      · subst hi1
        rw [getD_set_ne' _ _ _ _ _ (by omega), getD_set_eq' _ _ _ _ (by simp)]
        norm_num
      · by_cases hin : i = m + 3
        · subst hin
          rw [getD_set_eq' _ _ _ _ (by simp [List.length_set])]
          rw [if_neg (by omega), if_neg (by omega), if_neg (by omega)]
          rw [show m + 3 - 2 = m + 1 by omega]
          norm_num
        · rw [getD_set_ne' _ _ _ _ _ (by omega), getD_set_ne' _ _ _ _ _ (by omega),
            getD_replicate' _ _ _ _ (by omega)]
          by_cases hi0 : i = 0
          · simp [hi0]
          · rw [if_neg hi0, if_neg hi1]
            by_cases hmid : i - 2 < m + 1
            · rw [if_pos hmid, getD_replicate' _ _ _ _ hmid]
            · rw [if_neg hmid]
              have : i - 2 - (m + 1) = 1 := by omega
              rw [this]
              norm_num
  have hxT : xOf yi alpha beta
      = TDMAsolver (aOf yi alpha beta) (bOf yi alpha beta) (aOf yi alpha beta)
          (y2Of yi alpha beta) := rfl
  have hy2len : (y2Of yi alpha beta).length = m + 1 := by
    simp only [y2Of, List.length_set, List.length_dropLast, List.length_drop]
    omega
  have hxlen : (xOf yi alpha beta).length = m + 1 := by
    rw [hxT, TDMAsolver_length _ _ _ _ (by simp [bOf, aOf]) (by simp [aOf]), hy2len]
  have hcAlen : (cAOf yi alpha beta).length = m + 5 := by
    rw [hcA]
    simp
  have hg1 : (cAOf yi alpha beta).getD 1 0 = c1v := by
    unfold cAOf
    rw [getD_set_ne' _ _ _ _ _ (by omega),
      getD_set_eq' _ _ _ _ (by simp only [List.length_replicate]; omega), hc1v]
  have hgn : (cAOf yi alpha beta).getD yi.length 0 = cnv := by
    unfold cAOf
    rw [getD_set_eq' _ _ _ _
      (by simp only [List.length_set, List.length_replicate]; omega), hcnv]
  have hy2 : y2Of yi alpha beta
      = ((List.drop 1 yi).dropLast.set 0
          ((List.drop 1 yi).dropLast.headD 0 - c1v)).set
          (((List.drop 1 yi).dropLast.set 0
            ((List.drop 1 yi).dropLast.headD 0 - c1v)).length - 1)
          ((((List.drop 1 yi).dropLast.set 0
            ((List.drop 1 yi).dropLast.headD 0 - c1v))).getLastD 0 - cnv) := by
    simp only [y2Of, hg1, hgn]
  have haOf : aOf yi alpha beta
      = List.replicate ((List.drop 1 yi).dropLast).length (cst 1) := by
    unfold aOf
    rw [hy2len]
    congr 1
    simp only [List.length_dropLast, List.length_drop]
    omega
  have hbOf : bOf yi alpha beta
      = (List.replicate ((List.drop 1 yi).dropLast).length
          (cst (ι := ι) 1)).map (fun v => cst 3 + v) := by
    unfold bOf
    rw [haOf]
  have hxPure : xOf yi alpha beta
      = TDMAsolver (List.replicate ((List.drop 1 yi).dropLast).length (cst 1))
          ((List.replicate ((List.drop 1 yi).dropLast).length
            (cst (ι := ι) 1)).map (fun v => cst 3 + v))
          (List.replicate ((List.drop 1 yi).dropLast).length (cst 1))
          (((List.drop 1 yi).dropLast.set 0
            ((List.drop 1 yi).dropLast.headD 0 - c1v)).set
            (((List.drop 1 yi).dropLast.set 0
              ((List.drop 1 yi).dropLast.headD 0 - c1v)).length - 1)
            ((((List.drop 1 yi).dropLast.set 0
              ((List.drop 1 yi).dropLast.headD 0 - c1v))).getLastD 0 - cnv)) := by
    rw [show xOf yi alpha beta
        = TDMAsolver (aOf yi alpha beta) (bOf yi alpha beta) (aOf yi alpha beta)
            (y2Of yi alpha beta) from rfl, haOf, hbOf, hy2]
  set x := xOf yi alpha beta with hxdef
  have hcB : setSlice (cAOf yi alpha beta) 2 ((cAOf yi alpha beta).length - 2) x
      = 0 :: c1v :: (x ++ [cnv, 0]) := by
    unfold setSlice
    rw [hcAlen, hcA]
    rw [show (2 : ℕ) = 0 + 1 + 1 from rfl, List.take_succ_cons, List.take_succ_cons,
      List.take_zero]
    rw [show m + 5 - 2 = m + 1 + 1 + 1 by omega, List.drop_succ_cons,
      List.drop_succ_cons]
    have hdl := List.drop_left (List.replicate (m + 1) (0 : ι → ℚ)) [cnv, 0]
    rw [List.length_replicate] at hdl
    rw [hdl]
    simp
  have hgB1 : (0 :: c1v :: (x ++ [cnv, 0])).getD 1 0 = c1v := rfl
  have hgB2 : (0 :: c1v :: (x ++ [cnv, 0])).getD 2 0 = x.headD 0 := by
    rw [show (0 :: c1v :: (x ++ [cnv, 0])).getD 2 0 = (x ++ [cnv, 0]).getD 0 0
        from rfl,
      List.getD_append _ _ _ _ (by omega), headD_eq_getD]
  set c0v := cst (ι := ι) (alpha / 6) + cst 2 * c1v - x.headD 0 with hc0v
  have hgC2n : (c0v :: c1v :: (x ++ [cnv, 0])).getD (m + 5 - 2) 0 = cnv := by
    rw [show m + 5 - 2 = m + 3 by omega, getD_cons_cons, if_neg (by omega),
      if_neg (by omega), List.getD_append_right _ _ _ _ (by omega),
      show m + 3 - 2 - x.length = 0 by omega]
    rfl
  have hgC2m : (c0v :: c1v :: (x ++ [cnv, 0])).getD (m + 5 - 3) 0
      = x.getLastD 0 := by
    rw [show m + 5 - 3 = m + 2 by omega, getD_cons_cons, if_neg (by omega),
      if_neg (by omega), List.getD_append _ _ _ _ (by omega), getLastD_eq_getD,
      show m + 2 - 2 = m by omega, hxlen]
    rfl
  have hlenC2 : (c0v :: c1v :: (x ++ [cnv, 0])).length = m + 5 := by
    simp [hxlen]
  set cLv := cst (ι := ι) (beta / 6) + cst 2 * cnv - x.getLastD 0 with hcLv
  have hset : (c0v :: c1v :: (x ++ [cnv, 0])).set (m + 5 - 1) cLv
      = c0v :: c1v :: (x ++ [cnv, cLv]) := by
    rw [show m + 5 - 1 = m + 2 + 1 + 1 by omega, List.set_cons_succ,
      List.set_cons_succ, List.set_append_right _ _ (by omega),
      show m + 2 - x.length = 1 by omega]
    rfl
  simp only [cDOf]
  rw [← hxdef, hcB, List.set_cons_zero, hgB1, hgB2, ← hc0v, hlenC2, hgC2n, hgC2m,
    ← hcLv, hset]
  simp only [calc_coeffs]
  rw [← hc1v, ← hcnv, ← hxPure, ← hc0v, ← hcLv]
  simp only [List.cons_append, List.nil_append]

/-- C9: coefficient construction never modifies any caller-owned cell (in
particular the value array it reads), and its result is the pure
`calc_coeffs` of the caller values; `interp` never modifies any existing
cell (the fitted state is unchanged) and returns the pure `interp` value;
two consecutive `interp` calls with the same query list return equal
results. -/
theorem construct_interp_state {ι : Type*} (s : Store ι) (ryi rc : ℕ)
    (alpha beta : ℚ) (xi x : List ℚ)
    (hn : 3 ≤ (sread s ryi).length) (hrc : rc < s.length) :
    (∀ r, r < s.length → sread (calc_coeffs_st s ryi alpha beta).1 r = sread s r) ∧
    sread (calc_coeffs_st s ryi alpha beta).1 (calc_coeffs_st s ryi alpha beta).2
      = calc_coeffs (sread s ryi) alpha beta ∧
    (∀ r, r < s.length → sread (interp_st s rc xi x).1 r = sread s r) ∧
    sread (interp_st s rc xi x).1 (interp_st s rc xi x).2
      = interp xi (sread s rc) x ∧
    sread (interp_st (interp_st s rc xi x).1 rc xi x).1
        (interp_st (interp_st s rc xi x).1 rc xi x).2
      = sread (interp_st s rc xi x).1 (interp_st s rc xi x).2 := by
  refine ⟨?_, ?_, ?_, ?_, ?_⟩
  · intro r hr
    rw [calc_coeffs_st_run]
    exact sread_append_lt _ _ _ hr
  · rw [calc_coeffs_st_run]
    show sread (s ++ _) s.length = _
    rw [sread_append_zero]
    show cDOf (sread s ryi) alpha beta = _
    exact cDOf_eq_calc_coeffs _ _ _ hn
  · intro r hr
    simp only [interp_st, salloc]
    exact sread_append_lt _ _ _ hr
  · simp only [interp_st, salloc]
    rw [sread_append_zero]
    rfl
  · simp only [interp_st, salloc]
    rw [sread_append_zero, sread_append_zero, sread_append_lt _ _ _ hrc]

/-- Witness for the state theorem: a one-cell heap holding three constant
samples satisfies the hypotheses, and the construction result is checked. -/
theorem construct_interp_state_witness :
    (3 ≤ (sread ([[cst 6, cst 6, cst 6]] : Store Unit) 0).length
      ∧ 0 < ([[cst 6, cst 6, cst 6]] : Store Unit).length) ∧
    sread (calc_coeffs_st ([[cst 6, cst 6, cst 6]] : Store Unit) 0 0 0).1
        (calc_coeffs_st ([[cst 6, cst 6, cst 6]] : Store Unit) 0 0 0).2
      = calc_coeffs (sread ([[cst 6, cst 6, cst 6]] : Store Unit) 0) 0 0 :=
  ⟨⟨by norm_num [sread], by norm_num⟩,
   (construct_interp_state [[cst 6, cst 6, cst 6]] 0 0 0 0 [0, 1, 2] []
      (by norm_num [sread]) (by norm_num)).2.1⟩
